import Mathlib

/-!
Verification of the game-logic core of `Jogo_da_Velha.py` (class
`TicTacToeLogic` plus the move-submission control flow of the GUI handler
`fazer_jogada_gui` / `verificar_estado_jogo`).

Modelling conventions:
* a cell mark `' '`/`'X'`/`'O'` is `Mark.E`/`Mark.X`/`Mark.O`;
* the 3×3 nested-list board is a total function `Fin 3 → Fin 3 → Mark`
  (the lists always have length 3, so Python indexing of in-range indices
  is total; out-of-range indexing is modelled by `pyIdx3` returning
  `none`, i.e. an uncaught `IndexError`);
* Python `float('inf')`/`-float('inf')` bounds of the alpha-beta search are
  the `top`/`bot` elements of the explicit extended-integer type `EInt`;
* `random.shuffle` and `random.choice` are oracle parameters
  (`shuffle`, `choice`); the functions of the source that do not use them
  do not depend on them;
* the unbounded Python recursion of `minimax_alfa_beta` is expressed with
  a fuel parameter; fuel `9` (the number of board cells) is always enough,
  since each recursive call fills one empty cell.
-/

inductive Mark where
  | X : Mark
  | O : Mark
  | E : Mark
deriving DecidableEq, Repr

/-- The board: `tabuleiro[i][j]`, a 3×3 grid of marks. -/
abbrev Board := Fin 3 → Fin 3 → Mark

/-- A move position `(i, j)`. -/
abbrev Move := Fin 3 × Fin 3

/-- Assignment `tabuleiro[i][j] = m`, returning the updated board. -/
def setCell (b : Board) (i j : Fin 3) (m : Mark) : Board :=
  fun i' j' => if i' = i ∧ j' = j then m else b i' j'

/-- All nine cells in row-major order `(0,0),(0,1),…,(2,2)`, the order of
`for i in range(3) for j in range(3)`. -/
def allCells : List Move :=
  [(0, 0), (0, 1), (0, 2), (1, 0), (1, 1), (1, 2), (2, 0), (2, 1), (2, 2)]

/-- Result of `_avaliar_tabuleiro`: the winner string `'X'`/`'O'` is
`venc m`, the draw string `"Empate"` is `empate`; Python `None` is the
`none` of the surrounding `Option`. -/
inductive Res where
  | venc (m : Mark) : Res
  | empate : Res
deriving DecidableEq, Repr

/-- Chained comparison `a == b == c != ' '` of the source, on the three
cells `(i1,j1)`, `(i2,j2)`, `(i3,j3)`. -/
def tripla (b : Board) (i1 j1 i2 j2 i3 j3 : Fin 3) : Bool :=
  decide (b i1 j1 = b i2 j2) && decide (b i2 j2 = b i3 j3) &&
    decide (b i3 j3 ≠ Mark.E)

/-- Source `TicTacToeLogic._avaliar_tabuleiro`: the loop `for i in range(3)`
checks row `i` then column `i` (so the actual order is row 0, column 0,
row 1, column 1, row 2, column 2), then the two diagonals, then the draw
check over all cells in row-major order. -/
def avaliar_tabuleiro (b : Board) : Option Res × List Move :=
  if tripla b 0 0 0 1 0 2 then (some (.venc (b 0 0)), [(0, 0), (0, 1), (0, 2)])
  else if tripla b 0 0 1 0 2 0 then (some (.venc (b 0 0)), [(0, 0), (1, 0), (2, 0)])
  else if tripla b 1 0 1 1 1 2 then (some (.venc (b 1 0)), [(1, 0), (1, 1), (1, 2)])
  else if tripla b 0 1 1 1 2 1 then (some (.venc (b 0 1)), [(0, 1), (1, 1), (2, 1)])
  else if tripla b 2 0 2 1 2 2 then (some (.venc (b 2 0)), [(2, 0), (2, 1), (2, 2)])
  else if tripla b 0 2 1 2 2 2 then (some (.venc (b 0 2)), [(0, 2), (1, 2), (2, 2)])
  else if tripla b 0 0 1 1 2 2 then (some (.venc (b 0 0)), [(0, 0), (1, 1), (2, 2)])
  else if tripla b 0 2 1 1 2 0 then (some (.venc (b 0 2)), [(0, 2), (1, 1), (2, 0)])
  else if allCells.all (fun c => !decide (b c.1 c.2 = Mark.E)) then (some .empate, [])
  else (none, [])

/-- The mutable state of a `TicTacToeLogic` instance (player names are
cosmetic and omitted). -/
structure GameState where
  tabuleiro : Board
  jogador_atual : Mark
  vencedor : Option Res
deriving DecidableEq

/-- Source `reset_board`: empty board, `'X'` starts, no winner. -/
def reset_board : GameState :=
  { tabuleiro := fun _ _ => Mark.E, jogador_atual := Mark.X, vencedor := none }

/-- Python list indexing on a list of length 3: indices `0..2` directly,
`-3..-1` from the end, anything else raises `IndexError` (`none`). -/
def pyIdx3 (i : Int) : Option (Fin 3) :=
  if 0 ≤ i ∧ i < 3 then some ⟨i.toNat % 3, Nat.mod_lt _ (by omega)⟩
  else if -3 ≤ i ∧ i < 0 then some ⟨(i + 3).toNat % 3, Nat.mod_lt _ (by omega)⟩
  else none

/-- Source `TicTacToeLogic.fazer_jogada(x, y)`: reads `tabuleiro[x][y]`
(`none` = uncaught `IndexError` when an index is out of the Python list
range), places `jogador_atual` if the cell is `' '` and returns `True`,
otherwise returns `False`. -/
def fazer_jogada (s : GameState) (x y : Int) : Option (GameState × Bool) :=
  match pyIdx3 x, pyIdx3 y with
  | some i, some j =>
      if s.tabuleiro i j = Mark.E then
        some ({ s with tabuleiro := setCell s.tabuleiro i j s.jogador_atual }, true)
      else some (s, false)
  | _, _ => none

/-- Source `TicTacToeLogic.alternar_jogador`. -/
def alternar_jogador (s : GameState) : GameState :=
  { s with jogador_atual := if s.jogador_atual = Mark.X then Mark.O else Mark.X }

/-- Source `TicTacToeLogic.verificar_fim_de_jogo`: evaluates the board, stores
the winner when there is one, and returns `(fim, linha_vencedora)`. -/
def verificar_fim_de_jogo (s : GameState) : GameState × (Bool × List Move) :=
  match avaliar_tabuleiro s.tabuleiro with
  | (some r, l) => ({ s with vencedor := some r }, (true, l))
  | (none, _) => (s, (false, []))

/-- The logic-state effect of one submitted move: guard
`if self.jogo_logica.vencedor: return` of `fazer_jogada_gui`, then
`fazer_jogada`, then `verificar_estado_jogo` (store the verdict when the
game ended, otherwise `alternar_jogador`).  The returned flag records
whether a move was applied; `none` is an uncaught `IndexError`. -/
def submit_move (s : GameState) (x y : Int) : Option (GameState × Bool) :=
  if s.vencedor ≠ none then some (s, false)
  else
    match fazer_jogada s x y with
    | none => none
    | some (s1, false) => some (s1, false)
    | some (s1, true) =>
        let r := verificar_fim_de_jogo s1
        if r.2.1 then some (r.1, true) else some (alternar_jogador r.1, true)

/-- States reachable from `reset_board` by accepted moves. -/
inductive Reachable : GameState → Prop where
  | base : Reachable reset_board
  | step (s s' : GameState) (x y : Int) : Reachable s →
      submit_move s x y = some (s', true) → Reachable s'

/-- Source `_jogadas_possiveis`: empty cells in row-major order. -/
def jogadas_possiveis (b : Board) : List Move :=
  allCells.filter (fun c => decide (b c.1 c.2 = Mark.E))

/-- Source line `player_symbol = 'O' if cpu_symbol == 'X' else 'X'`. -/
def outro (m : Mark) : Mark :=
  if m = Mark.X then Mark.O else Mark.X

/-- Number of cells holding mark `m`. -/
def contar (b : Board) (m : Mark) : Nat :=
  (allCells.filter (fun c => decide (b c.1 c.2 = m))).length

/-- Source `_teste_jogada_vencedora(i, j, symbol)`: place `symbol` on a copy of
the board and test whether the evaluated winner equals `symbol`. -/
def teste_jogada_vencedora (s : GameState) (m : Move) (symbol : Mark) : Bool :=
  decide ((avaliar_tabuleiro (setCell s.tabuleiro m.1 m.2 symbol)).1 = some (.venc symbol))

/-- Source `jogada_aleatoria`: `random.choice` over the possible moves, `None`
when there is none.  `choice` is the randomness oracle. -/
def jogada_aleatoria (choice : List Move → Option Move) (s : GameState) : Option Move :=
  match jogadas_possiveis s.tabuleiro with
  | [] => none
  | l => choice l

/-- The corner cells, in source order. -/
def cantos : List Move := [(0, 0), (0, 2), (2, 0), (2, 2)]

/-- Source `jogada_media`: win, block, centre, shuffled corner, random — in that
order.  `shuffle` is the `random.shuffle` oracle. -/
def jogada_media (shuffle : List Move → List Move) (choice : List Move → Option Move)
    (s : GameState) (cpu_symbol player_symbol : Mark) : Option Move :=
  match (jogadas_possiveis s.tabuleiro).find? (fun m => teste_jogada_vencedora s m cpu_symbol) with
  | some m => some m
  | none =>
      match (jogadas_possiveis s.tabuleiro).find?
          (fun m => teste_jogada_vencedora s m player_symbol) with
      | some m => some m
      | none =>
          if s.tabuleiro 1 1 = Mark.E then some (1, 1)
          else
            match (shuffle cantos).find? (fun m => decide (s.tabuleiro m.1 m.2 = Mark.E)) with
            | some m => some m
            | none => jogada_aleatoria choice s

/-- Extended integers: `bot`/`top` model Python `-float('inf')` and
`float('inf')`; every actual minimax score is a plain integer. -/
inductive EInt where
  | bot : EInt
  | fin (n : Int) : EInt
  | top : EInt
deriving DecidableEq, Repr

/-- Order on `EInt` (`a <= b` of the source comparisons). -/
def EInt.le : EInt → EInt → Bool
  | .bot, _ => true
  | _, .top => true
  | .fin a, .fin b => decide (a ≤ b)
  | .top, _ => false
  | _, .bot => false

/-- Strict order, `a < b`. -/
def EInt.lt (a b : EInt) : Bool := !(EInt.le b a)

/-- Python `max(a, b)`. -/
def emax (a b : EInt) : EInt := if EInt.lt a b then b else a

/-- Python `min(a, b)`. -/
def emin (a b : EInt) : EInt := if EInt.lt b a then b else a

/-- The loop of `_process_minimax_branch` over the remaining possible
moves of the node board `b`.  `rec` is the recursive
`minimax_alfa_beta` call at the next ply (the maximizing flag already
flipped), `place` is `symbol_to_place`, `best`/`bm` are
`melhor_valor`/`melhor_jogada`, and the loop breaks as soon as
`beta <= alfa` after the bound update. -/
def branchAB (rec : Board → EInt → EInt → EInt × Option Move) (isMax : Bool)
    (place : Mark) (b : Board) :
    List Move → EInt → Option Move → EInt → EInt → EInt × Option Move
  | [], best, bm, _, _ => (best, bm)
  | m :: rest, best, bm, alfa, beta =>
      let valor := (rec (setCell b m.1 m.2 place) alfa beta).1
      if isMax then
        let best' := if EInt.lt best valor then valor else best
        let bm' := if EInt.lt best valor then some m else bm
        let alfa' := emax alfa best'
        if EInt.le beta alfa' then (best', bm')
        else branchAB rec isMax place b rest best' bm' alfa' beta
      else
        let best' := if EInt.lt valor best then valor else best
        let bm' := if EInt.lt valor best then some m else bm
        let beta' := emin beta best'
        if EInt.le beta' alfa then (best', bm')
        else branchAB rec isMax place b rest best' bm' alfa beta'

/-- The terminal scoring of `minimax_alfa_beta`:
`10` for `vencedor == cpu_symbol`, `-10` for `vencedor == player_symbol`,
`0` otherwise (draws in particular). -/
def pontuacao (v : Res) (cpu plr : Mark) : EInt :=
  if v = .venc cpu then .fin 10
  else if v = .venc plr then .fin (-10)
  else .fin 0

/-- Source `TicTacToeLogic.minimax_alfa_beta` together with
`_process_minimax_branch`: terminal boards are scored by `pontuacao`;
non-terminal boards run the alpha-beta loop over `_jogadas_possiveis`.
`fuel` bounds the recursion depth (the source recursion always terminates
because each call fills a cell; fuel `9` is therefore always
sufficient). -/
def minimax_alfa_beta : Nat → Board → Bool → Mark → Mark → EInt → EInt → EInt × Option Move
  | 0, tab, _, cpu, plr, _, _ =>
      match (avaliar_tabuleiro tab).1 with
      | some v => (pontuacao v cpu plr, none)
      | none => (.fin 0, none)
  | f + 1, tab, isMax, cpu, plr, alfa, beta =>
      match (avaliar_tabuleiro tab).1 with
      | some v => (pontuacao v cpu plr, none)
      | none =>
          branchAB (fun b a bt => minimax_alfa_beta f b (!isMax) cpu plr a bt) isMax
            (if isMax then cpu else plr) tab (jogadas_possiveis tab)
            (if isMax then .bot else .top) none alfa beta

/-- Modelled from the spec: the loop of a brute-force (unpruned) minimax
node, folding `max`/`min` of the recursive scores over the moves.  The
repository has no unpruned search; this is the comparison definition for
the refinement claim that pruning does not change the root score. -/
def branchPlain (rec : Board → EInt) (isMax : Bool) (place : Mark) (b : Board) :
    List Move → EInt → EInt
  | [], best => best
  | m :: rest, best =>
      branchPlain rec isMax place b rest
        (if isMax then emax best (rec (setCell b m.1 m.2 place))
         else emin best (rec (setCell b m.1 m.2 place)))

/-- Modelled from the spec: brute-force minimax with the same terminal
scores and move order as `minimax_alfa_beta` but no pruning. -/
def minimax_plain : Nat → Board → Bool → Mark → Mark → EInt
  | 0, tab, _, cpu, plr =>
      match (avaliar_tabuleiro tab).1 with
      | some v => pontuacao v cpu plr
      | none => .fin 0
  | f + 1, tab, isMax, cpu, plr =>
      match (avaliar_tabuleiro tab).1 with
      | some v => pontuacao v cpu plr
      | none =>
          branchPlain (fun b => minimax_plain f b (!isMax) cpu plr) isMax
            (if isMax then cpu else plr) tab (jogadas_possiveis tab)
            (if isMax then .bot else .top)

/-- Difficulty constant `FACIL = 'Fácil'`. -/
def FACIL : String := "Fácil"

/-- Difficulty constant `MEDIO = 'Médio'`. -/
def MEDIO : String := "Médio"

/-- Difficulty constant `IMPOSSIVEL = 'Impossível'`. -/
def IMPOSSIVEL : String := "Impossível"

/-- Source `TicTacToeLogic.estrategia_cpu`: dispatch on the difficulty string;
for `Impossível` the source hardcodes
`is_maximizing = cpu_symbol == 'O'`. -/
def estrategia_cpu (shuffle : List Move → List Move) (choice : List Move → Option Move)
    (s : GameState) (dificuldade : String) (cpu_symbol : Mark) : Option Move :=
  let player_symbol := outro cpu_symbol
  if dificuldade = FACIL then jogada_aleatoria choice s
  else if dificuldade = MEDIO then jogada_media shuffle choice s cpu_symbol player_symbol
  else if dificuldade = IMPOSSIVEL then
    (minimax_alfa_beta 9 s.tabuleiro (decide (cpu_symbol = Mark.O)) cpu_symbol player_symbol
      .bot .top).2
  else none

/-- The in-place mutation discipline of `_process_minimax_branch`: the
node board is mutated (`tabuleiro[i][j] = symbol_to_place`), the
recursive call receives the same (mutated) board, and afterwards the cell
is restored (`tabuleiro[i][j] = ' '`).  The threaded `Board` component is
the array as left behind by the loop. -/
def branchAB_st (rec : Board → EInt → EInt → (EInt × Option Move) × Board) (isMax : Bool)
    (place : Mark) :
    Board → List Move → EInt → Option Move → EInt → EInt → (EInt × Option Move) × Board
  | b, [], best, bm, _, _ => ((best, bm), b)
  | b, m :: rest, best, bm, alfa, beta =>
      let b1 := setCell b m.1 m.2 place
      let r := rec b1 alfa beta
      let valor := r.1.1
      let b3 := setCell r.2 m.1 m.2 Mark.E
      if isMax then
        let best' := if EInt.lt best valor then valor else best
        let bm' := if EInt.lt best valor then some m else bm
        let alfa' := emax alfa best'
        if EInt.le beta alfa' then ((best', bm'), b3)
        else branchAB_st rec isMax place b3 rest best' bm' alfa' beta
      else
        let best' := if EInt.lt valor best then valor else best
        let bm' := if EInt.lt valor best then some m else bm
        let beta' := emin beta best'
        if EInt.le beta' alfa then ((best', bm'), b3)
        else branchAB_st rec isMax place b3 rest best' bm' alfa beta'

/-- Function `minimax_alfa_beta` with the in-place board mutation of the source
made explicit: the result carries the board as the search left it.  The
pure `minimax_alfa_beta` is this function with the (restored) board
dropped; `branchAB_st_eq` below proves the two agree and that the board
comes back unchanged. -/
def minimax_alfa_beta_st : Nat → Board → Bool → Mark → Mark → EInt → EInt →
    (EInt × Option Move) × Board
  | 0, tab, _, cpu, plr, _, _ =>
      match (avaliar_tabuleiro tab).1 with
      | some v => ((pontuacao v cpu plr, none), tab)
      | none => ((.fin 0, none), tab)
  | f + 1, tab, isMax, cpu, plr, alfa, beta =>
      match (avaliar_tabuleiro tab).1 with
      | some v => ((pontuacao v cpu plr, none), tab)
      | none =>
          branchAB_st (fun b a bt => minimax_alfa_beta_st f b (!isMax) cpu plr a bt) isMax
            (if isMax then cpu else plr) tab (jogadas_possiveis tab)
            (if isMax then .bot else .top) none alfa beta

/-- Function `estrategia_cpu` with the state it leaves behind: the `Médio` tier
tests moves on copies (`tabuleiro_copia = [linha[:] ...]`), the
`Impossível` tier mutates and restores the authoritative board via
`minimax_alfa_beta_st`. -/
def estrategia_cpu_st (shuffle : List Move → List Move) (choice : List Move → Option Move)
    (s : GameState) (dificuldade : String) (cpu_symbol : Mark) : Option Move × GameState :=
  let player_symbol := outro cpu_symbol
  if dificuldade = FACIL then (jogada_aleatoria choice s, s)
  else if dificuldade = MEDIO then (jogada_media shuffle choice s cpu_symbol player_symbol, s)
  else if dificuldade = IMPOSSIVEL then
    let r := minimax_alfa_beta_st 9 s.tabuleiro (decide (cpu_symbol = Mark.O)) cpu_symbol
      player_symbol .bot .top
    (r.1.2, { s with tabuleiro := r.2 })
  else (none, s)

/-- The game played from board `b` with `turn` to move, in which the CPU
(playing `cpu`, hard tier) moves through `estrategia_cpu` with difficulty
`Impossível` and the opponent plays arbitrarily: `true` iff no branch of
this game ends in a win for the opponent `outro cpu`.  A CPU move that is
missing or falls outside the free cells counts as unsafe. -/
def hardSafe (cpu : Mark) : Nat → Board → Mark → Bool
  | 0, b, _ =>
      match (avaliar_tabuleiro b).1 with
      | some r => decide (r ≠ Res.venc (outro cpu))
      | none => true
  | f + 1, b, turn =>
      match (avaliar_tabuleiro b).1 with
      | some r => decide (r ≠ Res.venc (outro cpu))
      | none =>
          if turn = cpu then
            match estrategia_cpu (fun l => l) List.head? ⟨b, turn, none⟩ IMPOSSIVEL cpu with
            | some m =>
                (jogadas_possiveis b).contains m &&
                  hardSafe cpu f (setCell b m.1 m.2 cpu) (outro cpu)
            | none => false
          else
            (jogadas_possiveis b).all
              (fun m => hardSafe cpu f (setCell b m.1 m.2 (outro cpu)) cpu)

/-- The game value of board `b` from the brute-force minimax with the
CPU's mark `'O'` as maximizer and `'X'` as minimizer (the orientation the
source fixes for the hard tier). -/
def gameValue (b : Board) (isMax : Bool) : EInt :=
  minimax_plain 9 b isMax Mark.O Mark.X

/-- A line: three cell coordinates. -/
abbrev Linha := Move × Move × Move

/-- The three coordinates of a line, in order. -/
def coordsOf (l : Linha) : List Move := [l.1, l.2.1, l.2.2]

/-- A line is complete: three identical non-empty marks. -/
def completa (b : Board) (l : Linha) : Bool :=
  tripla b l.1.1 l.1.2 l.2.1.1 l.2.1.2 l.2.2.1 l.2.2.2

/-- The eight win lines in the order the source checks them: row `i` and
column `i` interleaved for `i = 0, 1, 2`, then the main diagonal, then
the anti-diagonal. -/
def ordemLinhas : List Linha :=
  [((0, 0), (0, 1), (0, 2)), ((0, 0), (1, 0), (2, 0)),
   ((1, 0), (1, 1), (1, 2)), ((0, 1), (1, 1), (2, 1)),
   ((2, 0), (2, 1), (2, 2)), ((0, 2), (1, 2), (2, 2)),
   ((0, 0), (1, 1), (2, 2)), ((0, 2), (1, 1), (2, 0))]

/-- The eight win lines in the order the spec asserts: all three rows,
then all three columns, then the diagonals. -/
def ordemLinhasSpec : List Linha :=
  [((0, 0), (0, 1), (0, 2)), ((1, 0), (1, 1), (1, 2)), ((2, 0), (2, 1), (2, 2)),
   ((0, 0), (1, 0), (2, 0)), ((0, 1), (1, 1), (2, 1)), ((0, 2), (1, 2), (2, 2)),
   ((0, 0), (1, 1), (2, 2)), ((0, 2), (1, 1), (2, 0))]

/-- Board literal from nine marks in row-major order. -/
def mkBoard (a b c d e f g h i : Mark) : Board := fun r q =>
  if r = 0 then (if q = 0 then a else if q = 1 then b else c)
  else if r = 1 then (if q = 0 then d else if q = 1 then e else f)
  else (if q = 0 then g else if q = 1 then h else i)

/-- Counterexample position for the hard tier: `X` (the CPU) to move and
able to win at once at `(2,0)` (row 2), while `O` threatens both `(0,2)`
(row 0) and `(2,0)` (column 0).  Reached by the legal game
`X(1,1), O(0,0), X(2,1), O(0,1), X(2,2), O(1,0)`. -/
def bC1X : Board :=
  mkBoard Mark.O Mark.O Mark.E Mark.O Mark.X Mark.E Mark.E Mark.X Mark.X

/-- Near-full drawn position with `O` to move, used as a concrete
instance of the amended hard-tier guarantee. -/
def bW1 : Board :=
  mkBoard Mark.X Mark.O Mark.X Mark.X Mark.O Mark.O Mark.E Mark.X Mark.E

/-- Board whose column 0 and row 1 are both complete `X` lines: the
source reports column 0 (checked at loop index `i = 0`) although row 1
comes first in the rows-before-columns order of the spec. -/
def bC7 : Board :=
  mkBoard Mark.X Mark.E Mark.E Mark.X Mark.X Mark.X Mark.X Mark.E Mark.E

/-- Board where `X` can win at `(0,2)` and must also block `O` at
`(1,2)`: the medium tier must prefer the win. -/
def bC6 : Board :=
  mkBoard Mark.X Mark.X Mark.E Mark.O Mark.O Mark.E Mark.E Mark.E Mark.E

/-- Terminal board with a complete `X` row 0. -/
def bC2 : Board :=
  mkBoard Mark.X Mark.X Mark.X Mark.O Mark.O Mark.E Mark.E Mark.E Mark.E

/-- Alpha-beta scores are genuine integers in `[-10, 10]`. -/
def Bounded (r : EInt) : Prop := ∃ k, r = .fin k ∧ -10 ≤ k ∧ k ≤ 10

/-- Fail-soft specification of an alpha-beta call: against the true value
`v`, a result `r` either fails high (`β ≤ r`, and then `v ≤ r`... stated
as the two one-sided bounds), fails low (`r ≤ α`), or is exact. -/
def ABspec (v r alfa beta : EInt) : Prop :=
  (EInt.le beta r = true ∨ EInt.le v r = true) ∧
    (EInt.le r alfa = true ∨ EInt.le r v = true)

/-- The session state holding the counterexample board `bC1X` with `X`
(the CPU) to move. -/
def sC1X : GameState := { tabuleiro := bC1X, jogador_atual := Mark.X, vencedor := none }

/-- A terminal session (`X` has won on `bC2`). -/
def sTerm : GameState := { tabuleiro := bC2, jogador_atual := Mark.X, vencedor := some (.venc Mark.X) }

/-- Session holding `bC6` with `X` to move. -/
def sC6 : GameState := { tabuleiro := bC6, jogador_atual := Mark.X, vencedor := none }

theorem EInt.le_refl (a : EInt) : EInt.le a a = true := by
  cases a <;> simp [EInt.le]

theorem EInt.le_trans {a b c : EInt} (h1 : EInt.le a b = true) (h2 : EInt.le b c = true) :
    EInt.le a c = true := by
  cases a <;> cases b <;> cases c <;> simp_all [EInt.le] <;> omega

theorem EInt.le_total (a b : EInt) : EInt.le a b = true ∨ EInt.le b a = true := by
  cases a <;> cases b <;> simp [EInt.le] <;> omega

theorem EInt.le_antisymm {a b : EInt} (h1 : EInt.le a b = true) (h2 : EInt.le b a = true) :
    a = b := by
  cases a <;> cases b <;> simp_all [EInt.le] <;> omega

theorem EInt.le_of_not_le {a b : EInt} (h : EInt.le a b = false) : EInt.le b a = true := by
  cases a <;> cases b <;> simp_all [EInt.le] <;> omega

theorem EInt.lt_eq_true {a b : EInt} : EInt.lt a b = true ↔ EInt.le b a = false := by
  simp [EInt.lt]

theorem EInt.lt_eq_false {a b : EInt} : EInt.lt a b = false ↔ EInt.le b a = true := by
  simp [EInt.lt]

theorem EInt.bot_le (a : EInt) : EInt.le .bot a = true := by cases a <;> simp [EInt.le]

theorem EInt.le_top (a : EInt) : EInt.le a .top = true := by cases a <;> simp [EInt.le]

theorem EInt.top_le_iff {a : EInt} : EInt.le .top a = true ↔ a = .top := by
  cases a <;> simp [EInt.le]

theorem EInt.le_bot_iff {a : EInt} : EInt.le a .bot = true ↔ a = .bot := by
  cases a <;> simp [EInt.le]

theorem EInt.fin_le_fin {m n : Int} : EInt.le (.fin m) (.fin n) = true ↔ m ≤ n := by
  simp [EInt.le]

theorem emax_bot_left (a : EInt) : emax .bot a = a := by
  cases a <;> simp [emax, EInt.lt, EInt.le]

theorem emin_top_left (a : EInt) : emin .top a = a := by
  cases a <;> simp [emin, EInt.lt, EInt.le]

theorem emax_self (a : EInt) : emax a a = a := by
  simp [emax, EInt.lt_eq_false, EInt.le_refl]

theorem emin_self (a : EInt) : emin a a = a := by
  simp [emin, EInt.lt_eq_false, EInt.le_refl]

theorem le_emax_left (a b : EInt) : EInt.le a (emax a b) = true := by
  unfold emax; split
  · next h => exact (EInt.le_of_not_le (EInt.lt_eq_true.mp h))
  · exact EInt.le_refl a

theorem le_emax_right (a b : EInt) : EInt.le b (emax a b) = true := by
  unfold emax; split
  · exact EInt.le_refl b
  · next h => exact EInt.lt_eq_false.mp (by simpa using h)

theorem emax_le {a b c : EInt} (h1 : EInt.le a c = true) (h2 : EInt.le b c = true) :
    EInt.le (emax a b) c = true := by
  unfold emax; split <;> assumption

theorem le_emax_iff {a b c : EInt} :
    EInt.le c (emax a b) = true ↔ EInt.le c a = true ∨ EInt.le c b = true := by
  constructor
  · intro h
    unfold emax at h; split at h
    · exact Or.inr h
    · exact Or.inl h
  · intro h
    rcases h with h | h
    · exact EInt.le_trans h (le_emax_left a b)
    · exact EInt.le_trans h (le_emax_right a b)

theorem emax_le_iff {a b c : EInt} :
    EInt.le (emax a b) c = true ↔ EInt.le a c = true ∧ EInt.le b c = true := by
  constructor
  · intro h
    exact ⟨EInt.le_trans (le_emax_left a b) h, EInt.le_trans (le_emax_right a b) h⟩
  · intro h; exact emax_le h.1 h.2

theorem emax_eq_left {a b : EInt} (h : EInt.le b a = true) : emax a b = a := by
  unfold emax; rw [EInt.lt_eq_false.mpr h]; simp

theorem emax_eq_right {a b : EInt} (h : EInt.le a b = true) : emax a b = b := by
  unfold emax; split
  · rfl
  · next h' => exact EInt.le_antisymm h (EInt.lt_eq_false.mp (by simpa using h'))

theorem emin_le_left (a b : EInt) : EInt.le (emin a b) a = true := by
  unfold emin; split
  · next h => exact (EInt.le_of_not_le (EInt.lt_eq_true.mp h))
  · exact EInt.le_refl a

theorem emin_le_right (a b : EInt) : EInt.le (emin a b) b = true := by
  unfold emin; split
  · exact EInt.le_refl b
  · next h => exact EInt.lt_eq_false.mp (by simpa using h)

theorem le_emin {a b c : EInt} (h1 : EInt.le c a = true) (h2 : EInt.le c b = true) :
    EInt.le c (emin a b) = true := by
  unfold emin; split <;> assumption

theorem emin_le_iff {a b c : EInt} :
    EInt.le (emin a b) c = true ↔ EInt.le a c = true ∨ EInt.le b c = true := by
  constructor
  · intro h
    unfold emin at h; split at h
    · exact Or.inr h
    · exact Or.inl h
  · intro h
    rcases h with h | h
    · exact EInt.le_trans (emin_le_left a b) h
    · exact EInt.le_trans (emin_le_right a b) h

theorem le_emin_iff {a b c : EInt} :
    EInt.le c (emin a b) = true ↔ EInt.le c a = true ∧ EInt.le c b = true := by
  constructor
  · intro h
    exact ⟨EInt.le_trans h (emin_le_left a b), EInt.le_trans h (emin_le_right a b)⟩
  · intro h; exact le_emin h.1 h.2

theorem emin_eq_left {a b : EInt} (h : EInt.le a b = true) : emin a b = a := by
  unfold emin; rw [EInt.lt_eq_false.mpr h]; simp

theorem emin_eq_right {a b : EInt} (h : EInt.le b a = true) : emin a b = b := by
  unfold emin; split
  · rfl
  · next h' => exact EInt.le_antisymm (EInt.lt_eq_false.mp (by simpa using h')) h


theorem setCell_same (b : Board) (i j : Fin 3) (m : Mark) : setCell b i j m i j = m := by
  simp [setCell]

theorem setCell_other {b : Board} {i j i' j' : Fin 3} {m : Mark} (h : ¬(i' = i ∧ j' = j)) :
    setCell b i j m i' j' = b i' j' := by
  simp [setCell, h]

theorem setCell_setCell (b : Board) (i j : Fin 3) (x y : Mark) :
    setCell (setCell b i j x) i j y = setCell b i j y := by
  funext i' j'
  by_cases h : i' = i ∧ j' = j <;> simp [setCell, h]

theorem setCell_eq_self {b : Board} {i j : Fin 3} {m : Mark} (h : b i j = m) :
    setCell b i j m = b := by
  funext i' j'
  by_cases h' : i' = i ∧ j' = j
  · rcases h' with ⟨rfl, rfl⟩; simpa [setCell] using h.symm
  · simp [setCell, h']

theorem filter_length_succ {α : Type} [DecidableEq α] :
    ∀ (l : List α) (c : α) (p q : α → Bool), l.Nodup → c ∈ l → p c = true → q c = false →
      (∀ d ∈ l, d ≠ c → p d = q d) → (l.filter p).length = (l.filter q).length + 1
  | [], c, p, q, _, hc, _, _, _ => absurd hc (List.not_mem_nil c)
  | a :: t, c, p, q, hnd, hc, hp, hq, hagree => by
      rcases List.nodup_cons.mp hnd with ⟨hat, hndt⟩
      rcases List.mem_cons.mp hc with rfl | hct
      · have hfilt : t.filter p = t.filter q := by
          apply List.filter_congr
          intro d hd
          exact hagree d (List.mem_cons_of_mem _ hd) (fun hdc => hat (hdc ▸ hd))
        simp [List.filter_cons, hp, hq, hfilt]
      · have hac : a ≠ c := fun h => hat (h ▸ hct)
        have ha : p a = q a := hagree a (List.mem_cons_self a t) hac
        have ih := filter_length_succ t c p q hndt hct hp hq
          (fun d hd hdc => hagree d (List.mem_cons_of_mem _ hd) hdc)
        cases hqa : q a <;> simp [List.filter_cons, ha, hqa, ih]

theorem mem_allCells : ∀ c : Move, c ∈ allCells := by decide

theorem allCells_nodup : allCells.Nodup := by decide

theorem mem_jogadas_iff {b : Board} {c : Move} :
    c ∈ jogadas_possiveis b ↔ b c.1 c.2 = Mark.E := by
  simp [jogadas_possiveis, List.mem_filter, mem_allCells]

theorem jogadas_length_le (b : Board) : (jogadas_possiveis b).length ≤ 9 := by
  have h := List.length_filter_le (fun c => decide (b c.1 c.2 = Mark.E)) allCells
  simpa [jogadas_possiveis] using h

theorem jogadas_set_length {b : Board} {c : Move} {m : Mark} (hE : b c.1 c.2 = Mark.E)
    (hm : m ≠ Mark.E) :
    (jogadas_possiveis b).length = (jogadas_possiveis (setCell b c.1 c.2 m)).length + 1 := by
  unfold jogadas_possiveis
  apply filter_length_succ allCells c _ _ allCells_nodup (mem_allCells c)
  · simpa using hE
  · simp [setCell_same, hm]
  · intro d _ hdc
    have h : ¬(d.1 = c.1 ∧ d.2 = c.2) := by
      intro hcontra
      exact hdc (Prod.ext hcontra.1 hcontra.2)
    simp [setCell_other h]

theorem contar_set_same {b : Board} {c : Move} {mk : Mark} (hE : b c.1 c.2 = Mark.E)
    (hmk : mk ≠ Mark.E) : contar (setCell b c.1 c.2 mk) mk = contar b mk + 1 := by
  unfold contar
  apply filter_length_succ allCells c _ _ allCells_nodup (mem_allCells c)
  · simp [setCell_same]
  · simp [hE]; exact fun h => hmk h.symm
  · intro d _ hdc
    have h : ¬(d.1 = c.1 ∧ d.2 = c.2) := by
      intro hcontra
      exact hdc (Prod.ext hcontra.1 hcontra.2)
    simp [setCell_other h]

theorem contar_set_other {b : Board} {c : Move} {mk m' : Mark} (hE : b c.1 c.2 = Mark.E)
    (hm' : m' ≠ Mark.E) (hne : m' ≠ mk) :
    contar (setCell b c.1 c.2 mk) m' = contar b m' := by
  unfold contar
  congr 1
  apply List.filter_congr
  intro d _
  by_cases hdc : d.1 = c.1 ∧ d.2 = c.2
  · have : d = c := Prod.ext hdc.1 hdc.2
    subst this
    simp [setCell_same, hE]
    exact ⟨fun h => absurd h.symm hne, fun h => absurd h.symm hm'⟩
  · simp [setCell_other hdc]

theorem avaliar_eq_find (b : Board) :
    avaliar_tabuleiro b =
      match ordemLinhas.find? (completa b) with
      | some l => (some (.venc (b l.1.1 l.1.2)), coordsOf l)
      | none =>
          if allCells.all (fun c => !decide (b c.1 c.2 = Mark.E)) then (some .empate, [])
          else (none, []) := by
  simp only [avaliar_tabuleiro, ordemLinhas, List.find?, completa, coordsOf]
  split_ifs with h1 h2 h3 h4 h5 h6 h7 h8 h9 <;>
    simp_all [List.find?, completa, coordsOf]

theorem not_all_empty_exists {b : Board}
    (h : allCells.all (fun c => !decide (b c.1 c.2 = Mark.E)) ≠ true) :
    ∃ c : Move, b c.1 c.2 = Mark.E := by
  simp only [ne_eq, List.all_eq_true, not_forall] at h
  rcases h with ⟨c, _, hc⟩
  exact ⟨c, by simpa using hc⟩

theorem avaliar_fst_none_iff (b : Board) :
    (avaliar_tabuleiro b).1 = none ↔
      (∀ l ∈ ordemLinhas, completa b l = false) ∧ ∃ c : Move, b c.1 c.2 = Mark.E := by
  rw [avaliar_eq_find b]
  rcases hfind : ordemLinhas.find? (completa b) with _ | l
  · have hall := List.find?_eq_none.mp hfind
    by_cases hfull : allCells.all (fun c => !decide (b c.1 c.2 = Mark.E)) = true
    · simp only [hfull, if_true]
      constructor
      · intro h; simp at h
      · rintro ⟨-, c, hc⟩
        have := List.all_eq_true.mp hfull c (mem_allCells c)
        simp [hc] at this
    · simp only [hfull, if_false]
      constructor
      · intro _
        exact ⟨fun l hl => by simpa using hall l hl, not_all_empty_exists hfull⟩
      · intro _; simp
  · constructor
    · intro h; simp at h
    · rintro ⟨hnone, -⟩
      have hc := List.find?_some hfind
      rw [hnone l (List.mem_of_find?_eq_some hfind)] at hc
      exact absurd hc (by simp)

theorem avaliar_fst_empate_iff (b : Board) :
    (avaliar_tabuleiro b).1 = some .empate ↔
      (∀ l ∈ ordemLinhas, completa b l = false) ∧ ∀ c : Move, b c.1 c.2 ≠ Mark.E := by
  rw [avaliar_eq_find b]
  rcases hfind : ordemLinhas.find? (completa b) with _ | l
  · have hall := List.find?_eq_none.mp hfind
    by_cases hfull : allCells.all (fun c => !decide (b c.1 c.2 = Mark.E)) = true
    · simp only [hfull, if_true]
      constructor
      · intro _
        refine ⟨fun l hl => by simpa using hall l hl, fun c => ?_⟩
        have := List.all_eq_true.mp hfull c (mem_allCells c)
        simpa using this
      · intro _; simp
    · simp only [hfull, if_false]
      constructor
      · intro h; simp at h
      · rintro ⟨-, hnoE⟩
        rcases not_all_empty_exists hfull with ⟨c, hc⟩
        exact absurd hc (hnoE c)
  · constructor
    · intro h; simp at h
    · rintro ⟨hnone, -⟩
      have hc := List.find?_some hfind
      rw [hnone l (List.mem_of_find?_eq_some hfind)] at hc
      exact absurd hc (by simp)

theorem avaliar_fst_venc {b : Board} {m : Mark}
    (h : (avaliar_tabuleiro b).1 = some (.venc m)) :
    ∃ l ∈ ordemLinhas, completa b l = true ∧ b l.1.1 l.1.2 = m := by
  rw [avaliar_eq_find b] at h
  rcases hfind : ordemLinhas.find? (completa b) with _ | l <;> rw [hfind] at h
  · by_cases hfull : allCells.all (fun c => !decide (b c.1 c.2 = Mark.E)) = true <;>
      simp [hfull] at h
  · have h' : b l.1.1 l.1.2 = m := by simpa using h
    exact ⟨l, List.mem_of_find?_eq_some hfind, List.find?_some hfind, h'⟩

theorem exists_completa_venc {b : Board} (h : ∃ l ∈ ordemLinhas, completa b l = true) :
    ∃ m, (avaliar_tabuleiro b).1 = some (.venc m) := by
  rcases h with ⟨l, hl, hcomp⟩
  rcases hfind : ordemLinhas.find? (completa b) with _ | l'
  · have hall := List.find?_eq_none.mp hfind
    exact absurd hcomp (hall l hl)
  · refine ⟨b l'.1.1 l'.1.2, ?_⟩
    rw [avaliar_eq_find b, hfind]

theorem minimax_alfa_beta_terminal {fuel : Nat} {tab : Board} {isMax : Bool}
    {cpu plr : Mark} {alfa beta : EInt} {v : Res} (h : (avaliar_tabuleiro tab).1 = some v) :
    minimax_alfa_beta fuel tab isMax cpu plr alfa beta = (pontuacao v cpu plr, none) := by
  cases fuel <;> (unfold minimax_alfa_beta; rw [h])

theorem minimax_plain_terminal {fuel : Nat} {tab : Board} {isMax : Bool}
    {cpu plr : Mark} {v : Res} (h : (avaliar_tabuleiro tab).1 = some v) :
    minimax_plain fuel tab isMax cpu plr = pontuacao v cpu plr := by
  cases fuel <;> (unfold minimax_plain; rw [h])

/-- C2 (counterexample).  The board `bC2` (a completed `X` top row) is
entered by the search one ply after the root `X X _ / O O _ / _ _ _`
(`X`, the maximizer, plays `(0,2)`), so the claimed terminal score at
depth `d = 1` would be `10 - 1 = 9`; the code has no depth parameter at
all and scores the position `10`. -/
theorem C2_counterexample :
    minimax_alfa_beta 8 bC2 false Mark.X Mark.O .bot .top = (.fin 10, none) ∧
    (avaliar_tabuleiro bC2).1 = some (.venc Mark.X) ∧ (10 : Int) ≠ 10 - 1 := by
  refine ⟨by decide, by decide, by decide⟩

/-- C2 (amended).  For every board, fuel, window and maximizing flag, a
terminal verdict is scored `10` for `Win(cpu_symbol)`, `-10` for
`Win(player_symbol)` and `0` otherwise, with no depth adjustment: the
engine does not prefer faster wins or slower losses. -/
theorem C2_terminal_scores_flat (fuel : Nat) (tab : Board) (isMax : Bool)
    (cpu plr : Mark) (alfa beta : EInt) (v : Res)
    (h : (avaliar_tabuleiro tab).1 = some v) :
    minimax_alfa_beta fuel tab isMax cpu plr alfa beta =
      if v = .venc cpu then (.fin 10, none)
      else if v = .venc plr then (.fin (-10), none)
      else (.fin 0, none) := by
  rw [minimax_alfa_beta_terminal h, pontuacao]
  split_ifs <;> rfl

/-- Witness for `C2_terminal_scores_flat` at the concrete board `bC2`. -/
theorem C2_witness :
    minimax_alfa_beta 9 bC2 true Mark.O Mark.X .bot .top =
      if Res.venc Mark.X = .venc Mark.O then (.fin 10, none)
      else if Res.venc Mark.X = .venc Mark.X then (.fin (-10), none)
      else (.fin 0, none) :=
  C2_terminal_scores_flat 9 bC2 true Mark.O Mark.X .bot .top (.venc Mark.X) (by decide)

/-- C3 (counterexample).  `fazer_jogada` called with row `3` on the fresh
board does not produce any typed `OutOfRange` failure value: it reads
`tabuleiro[3]` and raises an uncaught `IndexError` (modelled as `none`),
a crash rather than a reported error. -/
theorem C3_counterexample : fazer_jogada reset_board 3 0 = none := by decide

/-- C3 (amended).  `fazer_jogada`: an in-range occupied target returns
`False` with the whole state unchanged; an in-range empty target mutates
exactly the target cell (every other cell is untouched) and returns
`True`; a row or column outside the Python index range `-3..2` — in
particular row `3` — raises `IndexError` (a crash, not a typed error).
There is no `OutOfRange` error value anywhere. -/
theorem C3_fazer_jogada_cases (s : GameState) (x y : Int) :
    (∀ i j : Fin 3, pyIdx3 x = some i → pyIdx3 y = some j →
      s.tabuleiro i j ≠ Mark.E → fazer_jogada s x y = some (s, false)) ∧
    (∀ i j : Fin 3, pyIdx3 x = some i → pyIdx3 y = some j →
      s.tabuleiro i j = Mark.E →
        fazer_jogada s x y =
          some ({ s with tabuleiro := setCell s.tabuleiro i j s.jogador_atual }, true) ∧
        setCell s.tabuleiro i j s.jogador_atual i j = s.jogador_atual ∧
        ∀ i' j' : Fin 3, ¬(i' = i ∧ j' = j) →
          setCell s.tabuleiro i j s.jogador_atual i' j' = s.tabuleiro i' j') ∧
    ((pyIdx3 x = none ∨ pyIdx3 y = none) → fazer_jogada s x y = none) := by
  refine ⟨?_, ?_, ?_⟩
  · intro i j hx hy hocc
    unfold fazer_jogada
    rw [hx, hy]
    simp [hocc]
  · intro i j hx hy hemp
    refine ⟨?_, setCell_same _ _ _ _, fun i' j' h => setCell_other h⟩
    unfold fazer_jogada
    rw [hx, hy]
    simp [hemp]
  · intro h
    unfold fazer_jogada
    rcases h with h | h
    · rw [h]
    · rw [h]
      rcases pyIdx3 x with _ | i <;> rfl

/-- Witness for `C3_fazer_jogada_cases`: on the fresh board, the move
`(0, 0)` is applied by mutating exactly cell `(0, 0)`. -/
theorem C3_witness :
    fazer_jogada reset_board 0 0 =
      some ({ reset_board with
        tabuleiro := setCell reset_board.tabuleiro 0 0 reset_board.jogador_atual }, true) :=
  (((C3_fazer_jogada_cases reset_board 0 0).2.1 0 0 (by decide) (by decide) (by decide)).1)

theorem fazer_jogada_fields {s : GameState} {x y : Int} {s1 : GameState} {fl : Bool}
    (h : fazer_jogada s x y = some (s1, fl)) :
    s1.jogador_atual = s.jogador_atual ∧ s1.vencedor = s.vencedor := by
  unfold fazer_jogada at h
  rcases hx : pyIdx3 x with _ | i <;> rw [hx] at h
  · simp at h
  · rcases hy : pyIdx3 y with _ | j <;> rw [hy] at h
    · simp at h
    · by_cases hc : s.tabuleiro i j = Mark.E <;> simp [hc] at h <;> rw [← h.1] <;>
        exact ⟨rfl, rfl⟩

/-- C4.  On a terminal session (`vencedor` set) a submitted move is
rejected with no state change (the handler returns without touching the
logic state, reported here as the `false` flag).  On a non-terminal
session, a move accepted by `fazer_jogada` is applied and the session
then either records the verdict (turn unchanged) or flips the turn, and a
move rejected by `fazer_jogada` changes nothing else. -/
theorem C4_submit_terminal_guard (s : GameState) (x y : Int) :
    (s.vencedor ≠ none → submit_move s x y = some (s, false)) ∧
    (s.vencedor = none →
      (∀ s1 : GameState, fazer_jogada s x y = some (s1, true) →
        ∃ s2 : GameState, submit_move s x y = some (s2, true) ∧
          s2.tabuleiro = s1.tabuleiro ∧
          ((∃ r, (avaliar_tabuleiro s1.tabuleiro).1 = some r ∧ s2.vencedor = some r ∧
              s2.jogador_atual = s1.jogador_atual) ∨
            ((avaliar_tabuleiro s1.tabuleiro).1 = none ∧ s2.vencedor = none ∧
              s2.jogador_atual ≠ s1.jogador_atual))) ∧
      (∀ s1 : GameState, fazer_jogada s x y = some (s1, false) →
        submit_move s x y = some (s1, false))) := by
  constructor
  · intro hterm
    unfold submit_move
    simp [hterm]
  · intro hnone
    constructor
    · intro s1 hfaz
      obtain ⟨hjog, hven⟩ := fazer_jogada_fields hfaz
      have hv1 : s1.vencedor = none := by rw [hven, hnone]
      unfold submit_move
      simp only [hnone, ne_eq, not_true_eq_false, if_false, hfaz, not_false_eq_true, if_true]
      unfold verificar_fim_de_jogo
      rcases hav : avaliar_tabuleiro s1.tabuleiro with ⟨r, l⟩
      rcases r with _ | r
      · refine ⟨alternar_jogador s1, by simp, by simp [alternar_jogador], ?_⟩
        refine Or.inr ⟨rfl, ?_, ?_⟩
        · simpa [alternar_jogador] using hv1
        · rcases hj : s1.jogador_atual <;> simp [alternar_jogador, hj]
      · refine ⟨{ s1 with vencedor := some r }, by simp, by simp, ?_⟩
        exact Or.inl ⟨r, rfl, rfl, rfl⟩
    · intro s1 hfaz
      unfold submit_move
      simp [hnone, hfaz]

/-- Witness for `C4_submit_terminal_guard`: on the terminal session
`sTerm` the submission `(1, 1)` is rejected with no state change. -/
theorem C4_witness : submit_move sTerm 1 1 = some (sTerm, false) :=
  (C4_submit_terminal_guard sTerm 1 1).1 (by decide)

/-- C6.  Whenever some possible move immediately wins for `cpu_symbol`,
`jogada_media` returns a winning move — the win scan runs strictly before
the block scan, for every randomness oracle. -/
theorem C6_medium_takes_win (shuffle : List Move → List Move)
    (choice : List Move → Option Move) (s : GameState) (cpu_symbol player_symbol : Mark)
    (h : ∃ m ∈ jogadas_possiveis s.tabuleiro, teste_jogada_vencedora s m cpu_symbol = true) :
    ∃ m, jogada_media shuffle choice s cpu_symbol player_symbol = some m ∧
      m ∈ jogadas_possiveis s.tabuleiro ∧ teste_jogada_vencedora s m cpu_symbol = true := by
  have hsome : ((jogadas_possiveis s.tabuleiro).find?
      (fun m => teste_jogada_vencedora s m cpu_symbol)).isSome = true := by
    rw [List.find?_isSome]
    rcases h with ⟨m, hm, hw⟩
    exact ⟨m, hm, hw⟩
  rcases hfind : (jogadas_possiveis s.tabuleiro).find?
      (fun m => teste_jogada_vencedora s m cpu_symbol) with _ | m
  · rw [hfind] at hsome; simp at hsome
  · have hw : teste_jogada_vencedora s m cpu_symbol = true := by
      simpa using List.find?_some hfind
    refine ⟨m, ?_, List.mem_of_find?_eq_some hfind, hw⟩
    unfold jogada_media
    rw [hfind]

/-- Witness for `C6_medium_takes_win` on `sC6`, where `X` can win at
`(0,2)` and a block at `(1,2)` is also available. -/
theorem C6_witness :
    ∃ m, jogada_media (fun l => l) List.head? sC6 Mark.X Mark.O = some m ∧
      m ∈ jogadas_possiveis sC6.tabuleiro ∧ teste_jogada_vencedora sC6 m Mark.X = true :=
  C6_medium_takes_win (fun l => l) List.head? sC6 Mark.X Mark.O
    ⟨(0, 2), by decide, by decide⟩

/-- C7 (counterexample).  On `bC7` both column 0 and row 1 are complete;
in the spec's claimed order (all rows before all columns) the first
complete line is row 1, but the evaluator reports column 0, because the
source interleaves row `i` and column `i` inside one loop. -/
theorem C7_counterexample :
    ordemLinhasSpec.find? (completa bC7) = some ((1, 0), (1, 1), (1, 2)) ∧
    avaliar_tabuleiro bC7 = (some (.venc Mark.X), [(0, 0), (1, 0), (2, 0)]) ∧
    coordsOf ((1, 0), (1, 1), (1, 2)) ≠ [((0, 0) : Move), (1, 0), (2, 0)] := by
  refine ⟨by decide, by decide, by decide⟩

/-- C7 (amended).  The evaluator scans row 0, column 0, row 1, column 1,
row 2, column 2, then the two diagonals, and reports the first complete
line of that interleaved order together with its coordinates. -/
theorem C7_first_line_interleaved (b : Board) (l : Linha)
    (h : ordemLinhas.find? (completa b) = some l) :
    avaliar_tabuleiro b = (some (.venc (b l.1.1 l.1.2)), coordsOf l) := by
  rw [avaliar_eq_find b, h]

/-- Witness for `C7_first_line_interleaved` on `bC7`. -/
theorem C7_witness :
    avaliar_tabuleiro bC7 =
      (some (.venc (bC7 0 0)), coordsOf ((0, 0), (1, 0), (2, 0))) :=
  C7_first_line_interleaved bC7 ((0, 0), (1, 0), (2, 0)) (by decide)

/-- C8.  For every board the evaluator yields exactly one verdict:
`InProgress` iff no line is complete and some cell is empty, `Draw` iff
no line is complete and no cell is empty, and a win only together with a
complete line of the winner's mark (and conversely, some complete line
forces a win verdict). -/
theorem C8_verdict_trichotomy (b : Board) :
    ((avaliar_tabuleiro b).1 = none ↔
      (∀ l ∈ ordemLinhas, completa b l = false) ∧ ∃ c : Move, b c.1 c.2 = Mark.E) ∧
    ((avaliar_tabuleiro b).1 = some .empate ↔
      (∀ l ∈ ordemLinhas, completa b l = false) ∧ ∀ c : Move, b c.1 c.2 ≠ Mark.E) ∧
    (∀ m : Mark, (avaliar_tabuleiro b).1 = some (.venc m) →
      ∃ l ∈ ordemLinhas, completa b l = true ∧ b l.1.1 l.1.2 = m) ∧
    ((∃ l ∈ ordemLinhas, completa b l = true) →
      ∃ m : Mark, (avaliar_tabuleiro b).1 = some (.venc m)) :=
  ⟨avaliar_fst_none_iff b, avaliar_fst_empate_iff b,
    fun _ h => avaliar_fst_venc h, exists_completa_venc⟩

set_option maxRecDepth 4000 in
/-- Witness for `C8_verdict_trichotomy`: the full board with no
three-in-a-row `X O X / X O O / O X X` evaluates to a draw. -/
theorem C8_witness :
    (avaliar_tabuleiro
        (mkBoard Mark.X Mark.O Mark.X Mark.X Mark.O Mark.O Mark.O Mark.X Mark.X)).1 =
      some Res.empate :=
  ((C8_verdict_trichotomy
      (mkBoard Mark.X Mark.O Mark.X Mark.X Mark.O Mark.O Mark.O Mark.X Mark.X)).2.1).mpr
    ⟨by decide, by decide⟩

theorem fazer_jogada_true_spec {s : GameState} {x y : Int} {s1 : GameState}
    (h : fazer_jogada s x y = some (s1, true)) :
    ∃ i j : Fin 3, s.tabuleiro i j = Mark.E ∧
      s1 = { s with tabuleiro := setCell s.tabuleiro i j s.jogador_atual } := by
  unfold fazer_jogada at h
  rcases hx : pyIdx3 x with _ | i <;> rw [hx] at h
  · simp at h
  · rcases hy : pyIdx3 y with _ | j <;> rw [hy] at h
    · simp at h
    · by_cases hc : s.tabuleiro i j = Mark.E
      · simp only [hc, if_true, Option.some_inj, Prod.mk.injEq] at h
        exact ⟨i, j, hc, h.1.symm⟩
      · simp [hc] at h

theorem reachable_inv (s : GameState) (h : Reachable s) :
    (s.jogador_atual = Mark.X ∨ s.jogador_atual = Mark.O) ∧
    ((s.jogador_atual = Mark.X ∧ contar s.tabuleiro Mark.X = contar s.tabuleiro Mark.O) ∨
      (s.jogador_atual = Mark.O ∧
        contar s.tabuleiro Mark.X = contar s.tabuleiro Mark.O + 1) ∨
      (s.vencedor ≠ none ∧
        (contar s.tabuleiro Mark.X = contar s.tabuleiro Mark.O ∨
          contar s.tabuleiro Mark.X = contar s.tabuleiro Mark.O + 1))) := by
  induction h with
  | base => exact ⟨Or.inl rfl, Or.inl ⟨rfl, by decide⟩⟩
  | step s s' x y hs hsub ih =>
      by_cases hv : s.vencedor = none
      · unfold submit_move at hsub
        simp only [hv, ne_eq, not_true_eq_false, if_false] at hsub
        rcases hfaz : fazer_jogada s x y with _ | p <;> rw [hfaz] at hsub
        · simp at hsub
        · rcases p with ⟨s1, fl⟩
          rcases fl
          · simp at hsub
          · obtain ⟨i, j, hemp, hs1⟩ := fazer_jogada_true_spec hfaz
            have hjog : s.jogador_atual = Mark.X ∨ s.jogador_atual = Mark.O := ih.1
            have hcounts := ih.2
            have htab1 : s1.tabuleiro = setCell s.tabuleiro i j s.jogador_atual := by
              rw [hs1]
            have hjog1 : s1.jogador_atual = s.jogador_atual := by rw [hs1]
            have hven1 : s1.vencedor = s.vencedor := by rw [hs1]
            have hcx :
                contar s1.tabuleiro s.jogador_atual =
                  contar s.tabuleiro s.jogador_atual + 1 := by
              rw [htab1]
              exact contar_set_same (c := (i, j)) hemp
                (by rcases hjog with h' | h' <;> simp [h'])
            have hco : ∀ m' : Mark, m' ≠ Mark.E → m' ≠ s.jogador_atual →
                contar s1.tabuleiro m' = contar s.tabuleiro m' := by
              intro m' hm1 hm2
              rw [htab1]
              exact contar_set_other (c := (i, j)) hemp hm1 hm2
            rcases hav : avaliar_tabuleiro s1.tabuleiro with ⟨r, l⟩
            unfold verificar_fim_de_jogo at hsub
            rcases r with _ | r
            · simp only [hav] at hsub
              rw [if_neg Bool.false_ne_true] at hsub
              simp only [Option.some_inj, Prod.mk.injEq] at hsub
              have hs' : s' = alternar_jogador s1 := hsub.1.symm
              rcases hjog with hjx | hjo
              · have hcc : contar s.tabuleiro Mark.X = contar s.tabuleiro Mark.O := by
                  rcases hcounts with ⟨-, h'⟩ | ⟨h', -⟩ | ⟨h', -⟩
                  · exact h'
                  · rw [hjx] at h'; cases h'
                  · exact absurd hv h'
                refine ⟨Or.inr (by simp [hs', alternar_jogador, hjog1, hjx]), ?_⟩
                refine Or.inr (Or.inl ⟨by simp [hs', alternar_jogador, hjog1, hjx], ?_⟩)
                have h1 : contar s'.tabuleiro Mark.X = contar s.tabuleiro Mark.X + 1 := by
                  rw [hs']
                  show contar s1.tabuleiro Mark.X = _
                  rw [← hjx]
                  exact hcx
                have h2 : contar s'.tabuleiro Mark.O = contar s.tabuleiro Mark.O := by
                  rw [hs']
                  show contar s1.tabuleiro Mark.O = _
                  exact hco Mark.O (by simp) (by rw [hjx]; simp)
                omega
              · have hcc : contar s.tabuleiro Mark.X = contar s.tabuleiro Mark.O + 1 := by
                  rcases hcounts with ⟨h', -⟩ | ⟨-, h'⟩ | ⟨h', -⟩
                  · rw [hjo] at h'; cases h'
                  · exact h'
                  · exact absurd hv h'
                refine ⟨Or.inl (by simp [hs', alternar_jogador, hjog1, hjo]), ?_⟩
                refine Or.inl ⟨by simp [hs', alternar_jogador, hjog1, hjo], ?_⟩
                have h1 : contar s'.tabuleiro Mark.O = contar s.tabuleiro Mark.O + 1 := by
                  rw [hs']
                  show contar s1.tabuleiro Mark.O = _
                  rw [← hjo]
                  exact hcx
                have h2 : contar s'.tabuleiro Mark.X = contar s.tabuleiro Mark.X := by
                  rw [hs']
                  show contar s1.tabuleiro Mark.X = _
                  exact hco Mark.X (by simp) (by rw [hjo]; simp)
                omega
            · simp only [hav] at hsub
              rw [if_pos trivial] at hsub
              simp only [Option.some_inj, Prod.mk.injEq] at hsub
              have hs' : s' = { s1 with vencedor := some r } := hsub.1.symm
              have hvs' : s'.vencedor ≠ none := by rw [hs']; simp
              refine ⟨?_, Or.inr (Or.inr ⟨hvs', ?_⟩)⟩
              · rw [hs']
                show s1.jogador_atual = Mark.X ∨ s1.jogador_atual = Mark.O
                rw [hjog1]; exact hjog
              · have htx : s'.tabuleiro = s1.tabuleiro := by rw [hs']
                rw [htx]
                rcases hjog with hjx | hjo
                · have hcc : contar s.tabuleiro Mark.X = contar s.tabuleiro Mark.O := by
                    rcases ih.2 with ⟨-, h'⟩ | ⟨h', -⟩ | ⟨h', -⟩
                    · exact h'
                    · rw [hjx] at h'; cases h'
                    · exact absurd hv h'
                  have h1 := hcx
                  rw [hjx] at h1
                  have h2 := hco Mark.O (by simp) (by rw [hjx]; simp)
                  omega
                · have hcc : contar s.tabuleiro Mark.X = contar s.tabuleiro Mark.O + 1 := by
                    rcases ih.2 with ⟨h', -⟩ | ⟨-, h'⟩ | ⟨h', -⟩
                    · rw [hjo] at h'; cases h'
                    · exact h'
                    · exact absurd hv h'
                  have h1 := hcx
                  rw [hjo] at h1
                  have h2 := hco Mark.X (by simp) (by rw [hjo]; simp)
                  omega
      · unfold submit_move at hsub
        split_ifs at hsub with hcond
        · simp at hsub
        · exact absurd (not_not.mp hcond) hv

/-- C9.  In every state reachable from `reset_board` by accepted moves,
the number of `X` cells exceeds the number of `O` cells by 0 or 1, and
the player to move is `'X'` or `'O'`, never the empty mark. -/
theorem C9_board_invariant (s : GameState) (h : Reachable s) :
    (contar s.tabuleiro Mark.X = contar s.tabuleiro Mark.O ∨
      contar s.tabuleiro Mark.X = contar s.tabuleiro Mark.O + 1) ∧
    s.jogador_atual ≠ Mark.E := by
  obtain ⟨h1, h2⟩ := reachable_inv s h
  constructor
  · rcases h2 with ⟨-, h'⟩ | ⟨-, h'⟩ | ⟨-, h'⟩
    · exact Or.inl h'
    · exact Or.inr h'
    · exact h'
  · rcases h1 with h' | h' <;> simp [h']

/-- Witness for `C9_board_invariant` at the freshly reset session. -/
theorem C9_witness :
    (contar reset_board.tabuleiro Mark.X = contar reset_board.tabuleiro Mark.O ∨
      contar reset_board.tabuleiro Mark.X = contar reset_board.tabuleiro Mark.O + 1) ∧
    reset_board.jogador_atual ≠ Mark.E :=
  C9_board_invariant reset_board Reachable.base

theorem branchAB_st_eq (rec' : Board → EInt → EInt → (EInt × Option Move) × Board)
    (rec : Board → EInt → EInt → EInt × Option Move) (isMax : Bool) (place : Mark)
    (hrec : ∀ b a bt, rec' b a bt = (rec b a bt, b)) :
    ∀ (ms : List Move) (b : Board) (best : EInt) (bm : Option Move) (alfa beta : EInt),
      (∀ m ∈ ms, b m.1 m.2 = Mark.E) →
      branchAB_st rec' isMax place b ms best bm alfa beta =
        (branchAB rec isMax place b ms best bm alfa beta, b) := by
  intro ms
  induction ms with
  | nil => intro b best bm alfa beta _; rfl
  | cons m rest ih =>
      intro b best bm alfa beta hmem
      have hbm : b m.1 m.2 = Mark.E := hmem m (List.mem_cons_self m rest)
      have hb3 : setCell (setCell b m.1 m.2 place) m.1 m.2 Mark.E = b := by
        rw [setCell_setCell, setCell_eq_self hbm]
      have htail : ∀ m' ∈ rest, b m'.1 m'.2 = Mark.E :=
        fun m' hm' => hmem m' (List.mem_cons_of_mem m hm')
      unfold branchAB_st branchAB
      simp only [hrec, hb3]
      rcases isMax <;> split_ifs <;> first
        | rfl
        | exact ih b _ _ _ _ htail

theorem minimax_st_eq :
    ∀ (fuel : Nat) (tab : Board) (isMax : Bool) (cpu plr : Mark) (alfa beta : EInt),
      minimax_alfa_beta_st fuel tab isMax cpu plr alfa beta =
        (minimax_alfa_beta fuel tab isMax cpu plr alfa beta, tab) := by
  intro fuel
  induction fuel with
  | zero =>
      intro tab isMax cpu plr alfa beta
      unfold minimax_alfa_beta_st minimax_alfa_beta
      rcases hav : (avaliar_tabuleiro tab).1 with _ | v <;> rfl
  | succ f ih =>
      intro tab isMax cpu plr alfa beta
      unfold minimax_alfa_beta_st minimax_alfa_beta
      rcases hav : (avaliar_tabuleiro tab).1 with _ | v
      · exact branchAB_st_eq _ _ isMax _ (fun b a bt => ih b (!isMax) cpu plr a bt)
          (jogadas_possiveis tab) tab _ none alfa beta
          (fun m hm => mem_jogadas_iff.mp hm)
      · rfl

/-- C10.  Choosing a CPU move is read-only: for every difficulty, mark
and randomness oracle, the state `estrategia_cpu_st` leaves behind —
including the board mutated and restored cell by cell during the hard
tier's search — is exactly the input state, and the move returned is the
one computed by the pure `estrategia_cpu`. -/
theorem C10_strategy_readonly (shuffle : List Move → List Move)
    (choice : List Move → Option Move) (s : GameState) (dificuldade : String)
    (cpu_symbol : Mark) :
    (estrategia_cpu_st shuffle choice s dificuldade cpu_symbol).2 = s ∧
    (estrategia_cpu_st shuffle choice s dificuldade cpu_symbol).1 =
      estrategia_cpu shuffle choice s dificuldade cpu_symbol := by
  unfold estrategia_cpu_st estrategia_cpu
  split_ifs <;> simp [minimax_st_eq]

theorem EInt.le_of_lt {a b : EInt} (h : EInt.lt a b = true) : EInt.le a b = true :=
  EInt.le_of_not_le (by simpa [EInt.lt] using h)

theorem emax_mono_left {a b c : EInt} (h : EInt.le a b = true) :
    EInt.le (emax a c) (emax b c) = true :=
  emax_le (EInt.le_trans h (le_emax_left b c)) (le_emax_right b c)

theorem emin_mono_left {a b c : EInt} (h : EInt.le a b = true) :
    EInt.le (emin a c) (emin b c) = true :=
  le_emin (EInt.le_trans (emin_le_left a c) h) (emin_le_right a c)

theorem branchPlain_le_init (rec : Board → EInt) (place : Mark) (b : Board) :
    ∀ (ms : List Move) (init : EInt),
      EInt.le init (branchPlain rec true place b ms init) = true
  | [], init => EInt.le_refl init
  | m :: rest, init => by
      unfold branchPlain
      exact EInt.le_trans (le_emax_left init (rec (setCell b m.1 m.2 place)))
        (branchPlain_le_init rec place b rest _)

theorem branchPlain_init_le (rec : Board → EInt) (place : Mark) (b : Board) :
    ∀ (ms : List Move) (init : EInt),
      EInt.le (branchPlain rec false place b ms init) init = true
  | [], init => EInt.le_refl init
  | m :: rest, init => by
      unfold branchPlain
      exact EInt.le_trans (branchPlain_init_le rec place b rest _)
        (emin_le_left init (rec (setCell b m.1 m.2 place)))

theorem branchPlain_elem_le (rec : Board → EInt) (place : Mark) (b : Board) :
    ∀ (ms : List Move) (init : EInt) (m : Move), m ∈ ms →
      EInt.le (rec (setCell b m.1 m.2 place)) (branchPlain rec true place b ms init) = true
  | [], _, m, hm => absurd hm (List.not_mem_nil m)
  | m' :: rest, init, m, hm => by
      unfold branchPlain
      rcases List.mem_cons.mp hm with rfl | hm'
      · exact EInt.le_trans (le_emax_right init (rec (setCell b m.1 m.2 place)))
          (branchPlain_le_init rec place b rest _)
      · exact branchPlain_elem_le rec place b rest _ m hm'

theorem branchPlain_le_elem (rec : Board → EInt) (place : Mark) (b : Board) :
    ∀ (ms : List Move) (init : EInt) (m : Move), m ∈ ms →
      EInt.le (branchPlain rec false place b ms init) (rec (setCell b m.1 m.2 place)) = true
  | [], _, m, hm => absurd hm (List.not_mem_nil m)
  | m' :: rest, init, m, hm => by
      unfold branchPlain
      rcases List.mem_cons.mp hm with rfl | hm'
      · exact EInt.le_trans (branchPlain_init_le rec place b rest _)
          (emin_le_right init (rec (setCell b m.1 m.2 place)))
      · exact branchPlain_le_elem rec place b rest _ m hm'

theorem branchPlain_mono_max (rec : Board → EInt) (place : Mark) (b : Board) :
    ∀ (ms : List Move) (i1 i2 : EInt), EInt.le i1 i2 = true →
      EInt.le (branchPlain rec true place b ms i1) (branchPlain rec true place b ms i2) = true
  | [], _, _, h => h
  | m :: rest, i1, i2, h => by
      unfold branchPlain
      exact branchPlain_mono_max rec place b rest _ _ (emax_mono_left h)

theorem branchPlain_mono_min (rec : Board → EInt) (place : Mark) (b : Board) :
    ∀ (ms : List Move) (i1 i2 : EInt), EInt.le i1 i2 = true →
      EInt.le (branchPlain rec false place b ms i1) (branchPlain rec false place b ms i2) = true
  | [], _, _, h => h
  | m :: rest, i1, i2, h => by
      unfold branchPlain
      exact branchPlain_mono_min rec place b rest _ _ (emin_mono_left h)

theorem branchPlain_le_cases (rec : Board → EInt) (place : Mark) (b : Board) :
    ∀ (ms : List Move) (init r : EInt),
      EInt.le r (branchPlain rec true place b ms init) = true →
      EInt.le r init = true ∨ ∃ m ∈ ms, EInt.le r (rec (setCell b m.1 m.2 place)) = true
  | [], _, _, h => Or.inl h
  | m :: rest, init, r, h => by
      unfold branchPlain at h
      rcases branchPlain_le_cases rec place b rest _ r h with h' | ⟨m', hm', h'⟩
      · rcases le_emax_iff.mp h' with h'' | h''
        · exact Or.inl h''
        · exact Or.inr ⟨m, List.mem_cons_self m rest, h''⟩
      · exact Or.inr ⟨m', List.mem_cons_of_mem m hm', h'⟩

theorem branchPlain_ge_cases (rec : Board → EInt) (place : Mark) (b : Board) :
    ∀ (ms : List Move) (init r : EInt),
      EInt.le (branchPlain rec false place b ms init) r = true →
      EInt.le init r = true ∨ ∃ m ∈ ms, EInt.le (rec (setCell b m.1 m.2 place)) r = true
  | [], _, _, h => Or.inl h
  | m :: rest, init, r, h => by
      unfold branchPlain at h
      rcases branchPlain_ge_cases rec place b rest _ r h with h' | ⟨m', hm', h'⟩
      · rcases emin_le_iff.mp h' with h'' | h''
        · exact Or.inl h''
        · exact Or.inr ⟨m, List.mem_cons_self m rest, h''⟩
      · exact Or.inr ⟨m', List.mem_cons_of_mem m hm', h'⟩

theorem bnot_true {x : Bool} (h : ¬x = true) : x = false := by
  cases x
  · rfl
  · exact absurd rfl h

theorem bounded_not_le_bot {x : EInt} (h : Bounded x) : EInt.le x .bot = false := by
  obtain ⟨k, rfl, -, -⟩ := h
  rfl

theorem bounded_not_top_le {x : EInt} (h : Bounded x) : EInt.le .top x = false := by
  obtain ⟨k, rfl, -, -⟩ := h
  rfl

theorem pontuacao_bounded (v : Res) (cpu plr : Mark) : Bounded (pontuacao v cpu plr) := by
  unfold pontuacao
  split_ifs
  · exact ⟨10, rfl, by omega, by omega⟩
  · exact ⟨-10, rfl, by omega, by omega⟩
  · exact ⟨0, rfl, by omega, by omega⟩

theorem branchPlain_cons_true (rec : Board → EInt) (place : Mark) (b : Board)
    (m : Move) (rest : List Move) (init : EInt) :
    branchPlain rec true place b (m :: rest) init =
      branchPlain rec true place b rest (emax init (rec (setCell b m.1 m.2 place))) := rfl

theorem branchPlain_cons_false (rec : Board → EInt) (place : Mark) (b : Board)
    (m : Move) (rest : List Move) (init : EInt) :
    branchPlain rec false place b (m :: rest) init =
      branchPlain rec false place b rest (emin init (rec (setCell b m.1 m.2 place))) := rfl

theorem branchAB_cons_true (rec : Board → EInt → EInt → EInt × Option Move) (place : Mark)
    (b : Board) (m : Move) (rest : List Move) (best : EInt) (bm : Option Move)
    (alfa beta : EInt) :
    branchAB rec true place b (m :: rest) best bm alfa beta =
      if EInt.lt best (rec (setCell b m.1 m.2 place) alfa beta).1 = true then
        (if EInt.le beta (emax alfa (rec (setCell b m.1 m.2 place) alfa beta).1) = true then
          ((rec (setCell b m.1 m.2 place) alfa beta).1, some m)
        else
          branchAB rec true place b rest ((rec (setCell b m.1 m.2 place) alfa beta).1)
            (some m) (emax alfa (rec (setCell b m.1 m.2 place) alfa beta).1) beta)
      else
        (if EInt.le beta (emax alfa best) = true then (best, bm)
        else branchAB rec true place b rest best bm (emax alfa best) beta) := by
  by_cases h : EInt.lt best (rec (setCell b m.1 m.2 place) alfa beta).1 = true <;>
    simp [branchAB, h]

theorem branchAB_cons_false (rec : Board → EInt → EInt → EInt × Option Move) (place : Mark)
    (b : Board) (m : Move) (rest : List Move) (best : EInt) (bm : Option Move)
    (alfa beta : EInt) :
    branchAB rec false place b (m :: rest) best bm alfa beta =
      if EInt.lt ((rec (setCell b m.1 m.2 place) alfa beta).1) best = true then
        (if EInt.le (emin beta (rec (setCell b m.1 m.2 place) alfa beta).1) alfa = true then
          ((rec (setCell b m.1 m.2 place) alfa beta).1, some m)
        else
          branchAB rec false place b rest ((rec (setCell b m.1 m.2 place) alfa beta).1)
            (some m) alfa (emin beta (rec (setCell b m.1 m.2 place) alfa beta).1))
      else
        (if EInt.le (emin beta best) alfa = true then (best, bm)
        else branchAB rec false place b rest best bm alfa (emin beta best)) := by
  by_cases h : EInt.lt ((rec (setCell b m.1 m.2 place) alfa beta).1) best = true <;>
    simp [branchAB, h]

theorem branchAB_max_spec (rec : Board → EInt → EInt → EInt × Option Move)
    (val : Board → EInt) (place : Mark) (b : Board) (beta : EInt) :
    ∀ (ms : List Move) (best : EInt) (bm : Option Move) (alfa : EInt),
      (∀ m ∈ ms, ∀ a : EInt, EInt.lt a beta = true →
        Bounded (rec (setCell b m.1 m.2 place) a beta).1 ∧
        ABspec (val (setCell b m.1 m.2 place)) ((rec (setCell b m.1 m.2 place) a beta).1)
          a beta) →
      EInt.lt alfa beta = true → EInt.le best alfa = true → (best = .bot ∨ Bounded best) →
      ((ms = [] ∧ (branchAB rec true place b ms best bm alfa beta).1 = best) ∨
        Bounded (branchAB rec true place b ms best bm alfa beta).1) ∧
      ABspec (branchPlain val true place b ms best)
        ((branchAB rec true place b ms best bm alfa beta).1) alfa beta ∧
      EInt.le best ((branchAB rec true place b ms best bm alfa beta).1) = true := by
  intro ms
  induction ms with
  | nil =>
      intro best bm alfa _ hab hba _
      exact ⟨Or.inl ⟨rfl, rfl⟩, ⟨Or.inr (EInt.le_refl best), Or.inl hba⟩, EInt.le_refl best⟩
  | cons m rest ih =>
      intro best bm alfa H hab hba hWB
      have Hm := H m (List.mem_cons_self m rest) alfa hab
      have Hb : Bounded (rec (setCell b m.1 m.2 place) alfa beta).1 := Hm.1
      have HA := Hm.2.1
      have HB := Hm.2.2
      have hβα : EInt.le beta alfa = false := EInt.lt_eq_true.mp hab
      rw [branchAB_cons_true, branchPlain_cons_true]
      by_cases hupd : EInt.lt best (rec (setCell b m.1 m.2 place) alfa beta).1 = true
      · rw [if_pos hupd]
        have hbr : EInt.le best (rec (setCell b m.1 m.2 place) alfa beta).1 :=
          EInt.le_of_lt hupd
        by_cases hhalt :
            EInt.le beta (emax alfa (rec (setCell b m.1 m.2 place) alfa beta).1) = true
        · -- beta cutoff immediately after the update
          rw [if_pos hhalt]
          have hβrc : EInt.le beta (rec (setCell b m.1 m.2 place) alfa beta).1 = true := by
            rcases le_emax_iff.mp hhalt with h' | h'
            · rw [hβα] at h'; cases h'
            · exact h'
          refine ⟨Or.inr Hb, ⟨Or.inl hβrc, ?_⟩, hbr⟩
          rcases HB with h' | h'
          · exact Or.inl h'
          · refine Or.inr (EInt.le_trans h' ?_)
            exact EInt.le_trans
              (le_emax_right best (val (setCell b m.1 m.2 place)))
              (branchPlain_le_init val place b rest _)
        · -- no cutoff: continue the loop with the updated bounds
          rw [if_neg hhalt]
          have hα'β :
              EInt.lt (emax alfa (rec (setCell b m.1 m.2 place) alfa beta).1) beta = true :=
            EInt.lt_eq_true.mpr (bnot_true hhalt)
          obtain ⟨ihBnd, ihAB, ihLe⟩ := ih ((rec (setCell b m.1 m.2 place) alfa beta).1)
            (some m) (emax alfa (rec (setCell b m.1 m.2 place) alfa beta).1)
            (fun m' hm' => H m' (List.mem_cons_of_mem m hm')) hα'β
            (le_emax_right alfa _) (Or.inr Hb)
          have hcase_rc : ∀ r : EInt,
              EInt.le r ((rec (setCell b m.1 m.2 place) alfa beta).1) = true →
              EInt.le r alfa = true ∨
              EInt.le r (branchPlain val true place b rest
                (emax best (val (setCell b m.1 m.2 place)))) = true := by
            intro r hr_rc
            rcases HB with h' | h'
            · exact Or.inl (EInt.le_trans hr_rc h')
            · refine Or.inr (EInt.le_trans (EInt.le_trans hr_rc h') ?_)
              exact EInt.le_trans
                (le_emax_right best (val (setCell b m.1 m.2 place)))
                (branchPlain_le_init val place b rest _)
          refine ⟨?_, ⟨?_, ?_⟩, ?_⟩
          · rcases ihBnd with ⟨-, hr⟩ | hr
            · exact Or.inr (by rw [hr]; exact Hb)
            · exact Or.inr hr
          · rcases HA with hA | hA
            · exact Or.inl (EInt.le_trans hA ihLe)
            · have hVle : EInt.le (emax best (val (setCell b m.1 m.2 place)))
                  ((rec (setCell b m.1 m.2 place) alfa beta).1) = true :=
                emax_le hbr hA
              rcases ihAB.1 with h' | h'
              · exact Or.inl h'
              · exact Or.inr
                  (EInt.le_trans (branchPlain_mono_max val place b rest _ _ hVle) h')
          · rcases ihAB.2 with h' | h'
            · rcases le_emax_iff.mp h' with h'' | h''
              · exact Or.inl h''
              · exact hcase_rc _ h''
            · rcases branchPlain_le_cases val place b rest _ _ h' with h'' | ⟨m', hm', h''⟩
              · exact hcase_rc _ h''
              · exact Or.inr (EInt.le_trans h''
                  (branchPlain_elem_le val place b rest _ m' hm'))
          · exact EInt.le_trans hbr ihLe
      · -- no update: the new value is not better
        rw [if_neg hupd]
        have hrcb : EInt.le (rec (setCell b m.1 m.2 place) alfa beta).1 best = true :=
          EInt.lt_eq_false.mp (bnot_true hupd)
        have hvc_best : EInt.le (val (setCell b m.1 m.2 place)) best = true := by
          rcases HA with hA | hA
          · have h' := EInt.le_trans (EInt.le_trans hA hrcb) hba
            rw [hβα] at h'; cases h'
          · exact EInt.le_trans hA hrcb
        have hbestB : Bounded best := by
          rcases hWB with rfl | hB
          · obtain ⟨k, hk, -, -⟩ := Hb
            rw [hk] at hrcb
            cases hrcb
          · exact hB
        rw [emax_eq_left hba, emax_eq_left hvc_best,
          if_neg (show ¬EInt.le beta alfa = true by rw [hβα]; exact Bool.false_ne_true)]
        obtain ⟨ihBnd, ihAB, ihLe⟩ := ih best bm alfa
          (fun m' hm' => H m' (List.mem_cons_of_mem m hm')) hab hba (Or.inr hbestB)
        refine ⟨?_, ihAB, ihLe⟩
        rcases ihBnd with ⟨-, hr⟩ | hr
        · exact Or.inr (by rw [hr]; exact hbestB)
        · exact Or.inr hr

theorem branchAB_min_spec (rec : Board → EInt → EInt → EInt × Option Move)
    (val : Board → EInt) (place : Mark) (b : Board) (alfa : EInt) :
    ∀ (ms : List Move) (best : EInt) (bm : Option Move) (beta : EInt),
      (∀ m ∈ ms, ∀ bt : EInt, EInt.lt alfa bt = true →
        Bounded (rec (setCell b m.1 m.2 place) alfa bt).1 ∧
        ABspec (val (setCell b m.1 m.2 place)) ((rec (setCell b m.1 m.2 place) alfa bt).1)
          alfa bt) →
      EInt.lt alfa beta = true → EInt.le beta best = true → (best = .top ∨ Bounded best) →
      ((ms = [] ∧ (branchAB rec false place b ms best bm alfa beta).1 = best) ∨
        Bounded (branchAB rec false place b ms best bm alfa beta).1) ∧
      ABspec (branchPlain val false place b ms best)
        ((branchAB rec false place b ms best bm alfa beta).1) alfa beta ∧
      EInt.le ((branchAB rec false place b ms best bm alfa beta).1) best = true := by
  intro ms
  induction ms with
  | nil =>
      intro best bm beta _ hab hbb _
      exact ⟨Or.inl ⟨rfl, rfl⟩, ⟨Or.inl hbb, Or.inr (EInt.le_refl best)⟩, EInt.le_refl best⟩
  | cons m rest ih =>
      intro best bm beta H hab hbb hWB
      have Hm := H m (List.mem_cons_self m rest) beta hab
      have Hb : Bounded (rec (setCell b m.1 m.2 place) alfa beta).1 := Hm.1
      have HA := Hm.2.1
      have HB := Hm.2.2
      have hβα : EInt.le beta alfa = false := EInt.lt_eq_true.mp hab
      rw [branchAB_cons_false, branchPlain_cons_false]
      by_cases hupd : EInt.lt ((rec (setCell b m.1 m.2 place) alfa beta).1) best = true
      · rw [if_pos hupd]
        have hrb : EInt.le (rec (setCell b m.1 m.2 place) alfa beta).1 best :=
          EInt.le_of_lt hupd
        by_cases hhalt :
            EInt.le (emin beta (rec (setCell b m.1 m.2 place) alfa beta).1) alfa = true
        · -- alpha cutoff immediately after the update
          rw [if_pos hhalt]
          have hrcα : EInt.le (rec (setCell b m.1 m.2 place) alfa beta).1 alfa = true := by
            rcases emin_le_iff.mp hhalt with h' | h'
            · rw [hβα] at h'; cases h'
            · exact h'
          refine ⟨Or.inr Hb, ⟨?_, Or.inl hrcα⟩, hrb⟩
          rcases HA with h' | h'
          · exact Or.inl h'
          · refine Or.inr (EInt.le_trans ?_ h')
            exact EInt.le_trans (branchPlain_init_le val place b rest _)
              (emin_le_right best (val (setCell b m.1 m.2 place)))
        · -- no cutoff: continue the loop with the updated bounds
          rw [if_neg hhalt]
          have hαβ' :
              EInt.lt alfa (emin beta (rec (setCell b m.1 m.2 place) alfa beta).1) = true :=
            EInt.lt_eq_true.mpr (bnot_true hhalt)
          obtain ⟨ihBnd, ihAB, ihLe⟩ := ih ((rec (setCell b m.1 m.2 place) alfa beta).1)
            (some m) (emin beta (rec (setCell b m.1 m.2 place) alfa beta).1)
            (fun m' hm' => H m' (List.mem_cons_of_mem m hm')) hαβ'
            (emin_le_right beta _) (Or.inr Hb)
          have hcase_rc : ∀ r : EInt,
              EInt.le ((rec (setCell b m.1 m.2 place) alfa beta).1) r = true →
              EInt.le beta r = true ∨
              EInt.le (branchPlain val false place b rest
                (emin best (val (setCell b m.1 m.2 place)))) r = true := by
            intro r hrc_r
            rcases HA with h' | h'
            · exact Or.inl (EInt.le_trans h' hrc_r)
            · refine Or.inr (EInt.le_trans ?_ (EInt.le_trans h' hrc_r))
              exact EInt.le_trans (branchPlain_init_le val place b rest _)
                (emin_le_right best (val (setCell b m.1 m.2 place)))
          refine ⟨?_, ⟨?_, ?_⟩, ?_⟩
          · rcases ihBnd with ⟨-, hr⟩ | hr
            · exact Or.inr (by rw [hr]; exact Hb)
            · exact Or.inr hr
          · rcases ihAB.1 with h' | h'
            · rcases emin_le_iff.mp h' with h'' | h''
              · exact Or.inl h''
              · exact hcase_rc _ h''
            · rcases branchPlain_ge_cases val place b rest _ _ h' with h'' | ⟨m', hm', h''⟩
              · exact hcase_rc _ h''
              · exact Or.inr (EInt.le_trans
                  (branchPlain_le_elem val place b rest _ m' hm') h'')
          · rcases HB with hBc | hBc
            · exact Or.inl (EInt.le_trans ihLe hBc)
            · have hVle : EInt.le ((rec (setCell b m.1 m.2 place) alfa beta).1)
                  (emin best (val (setCell b m.1 m.2 place))) = true :=
                le_emin hrb hBc
              rcases ihAB.2 with h' | h'
              · exact Or.inl h'
              · exact Or.inr
                  (EInt.le_trans h' (branchPlain_mono_min val place b rest _ _ hVle))
          · exact EInt.le_trans ihLe hrb
      · -- no update: the new value is not smaller
        rw [if_neg hupd]
        have hbrc : EInt.le best (rec (setCell b m.1 m.2 place) alfa beta).1 = true :=
          EInt.lt_eq_false.mp (bnot_true hupd)
        have hbest_vc : EInt.le best (val (setCell b m.1 m.2 place)) = true := by
          rcases HB with hBc | hBc
          · have h' := EInt.le_trans (EInt.le_trans hbb hbrc) hBc
            rw [hβα] at h'; cases h'
          · exact EInt.le_trans hbrc hBc
        have hbestB : Bounded best := by
          rcases hWB with rfl | hB
          · obtain ⟨k, hk, -, -⟩ := Hb
            rw [hk] at hbrc
            cases hbrc
          · exact hB
        rw [emin_eq_left hbb, emin_eq_left hbest_vc,
          if_neg (show ¬EInt.le beta alfa = true by rw [hβα]; exact Bool.false_ne_true)]
        obtain ⟨ihBnd, ihAB, ihLe⟩ := ih best bm beta
          (fun m' hm' => H m' (List.mem_cons_of_mem m hm')) hab hbb (Or.inr hbestB)
        refine ⟨?_, ihAB, ihLe⟩
        rcases ihBnd with ⟨-, hr⟩ | hr
        · exact Or.inr (by rw [hr]; exact hbestB)
        · exact Or.inr hr

theorem jogadas_ne_nil {b : Board} (h : (avaliar_tabuleiro b).1 = none) :
    jogadas_possiveis b ≠ [] := by
  rcases ((avaliar_fst_none_iff b).mp h).2 with ⟨c, hc⟩
  intro hnil
  have hmem : c ∈ jogadas_possiveis b := mem_jogadas_iff.mpr hc
  rw [hnil] at hmem
  exact List.not_mem_nil c hmem

theorem minimax_alfa_beta_succ_none {f : Nat} {tab : Board} {isMax : Bool} {cpu plr : Mark}
    {alfa beta : EInt} (h : (avaliar_tabuleiro tab).1 = none) :
    minimax_alfa_beta (f + 1) tab isMax cpu plr alfa beta =
      branchAB (fun b a bt => minimax_alfa_beta f b (!isMax) cpu plr a bt) isMax
        (if isMax then cpu else plr) tab (jogadas_possiveis tab)
        (if isMax then .bot else .top) none alfa beta := by
  conv_lhs => unfold minimax_alfa_beta
  rw [h]

theorem minimax_plain_succ_none {f : Nat} {tab : Board} {isMax : Bool} {cpu plr : Mark}
    (h : (avaliar_tabuleiro tab).1 = none) :
    minimax_plain (f + 1) tab isMax cpu plr =
      branchPlain (fun b => minimax_plain f b (!isMax) cpu plr) isMax
        (if isMax then cpu else plr) tab (jogadas_possiveis tab)
        (if isMax then .bot else .top) := by
  conv_lhs => unfold minimax_plain
  rw [h]

theorem minimax_AB_spec (cpu plr : Mark) (hcpu : cpu ≠ Mark.E) (hplr : plr ≠ Mark.E) :
    ∀ (fuel : Nat) (tab : Board) (isMax : Bool) (alfa beta : EInt),
      (jogadas_possiveis tab).length ≤ fuel → EInt.lt alfa beta = true →
      Bounded (minimax_alfa_beta fuel tab isMax cpu plr alfa beta).1 ∧
      ABspec (minimax_plain fuel tab isMax cpu plr)
        ((minimax_alfa_beta fuel tab isMax cpu plr alfa beta).1) alfa beta := by
  intro fuel
  induction fuel with
  | zero =>
      intro tab isMax alfa beta hlen hab
      rcases hav : (avaliar_tabuleiro tab).1 with _ | v
      · exact absurd (List.length_eq_zero.mp (Nat.le_zero.mp hlen)) (jogadas_ne_nil hav)
      · rw [minimax_alfa_beta_terminal hav, minimax_plain_terminal hav]
        exact ⟨pontuacao_bounded v cpu plr,
          Or.inr (EInt.le_refl _), Or.inr (EInt.le_refl _)⟩
  | succ f ihf =>
      intro tab isMax alfa beta hlen hab
      rcases hav : (avaliar_tabuleiro tab).1 with _ | v
      · rw [minimax_alfa_beta_succ_none hav, minimax_plain_succ_none hav]
        rcases isMax
        · -- minimizing node: symbol_to_place = player_symbol
          have hchild : ∀ m ∈ jogadas_possiveis tab,
              (jogadas_possiveis (setCell tab m.1 m.2 plr)).length ≤ f := by
            intro m hm
            have hE := mem_jogadas_iff.mp hm
            have := jogadas_set_length (b := tab) (c := m) hE hplr
            omega
          obtain ⟨hB, hAB, -⟩ := branchAB_min_spec
            (fun b a bt => minimax_alfa_beta f b true cpu plr a bt)
            (fun b => minimax_plain f b true cpu plr) plr tab alfa
            (jogadas_possiveis tab) .top none beta
            (fun m hm bt hbt => ihf (setCell tab m.1 m.2 plr) true alfa bt (hchild m hm) hbt)
            hab (EInt.le_top beta) (Or.inl rfl)
          constructor
          · rcases hB with ⟨hnil, -⟩ | hB
            · exact absurd hnil (jogadas_ne_nil hav)
            · exact hB
          · exact hAB
        · -- maximizing node: symbol_to_place = cpu_symbol
          have hchild : ∀ m ∈ jogadas_possiveis tab,
              (jogadas_possiveis (setCell tab m.1 m.2 cpu)).length ≤ f := by
            intro m hm
            have hE := mem_jogadas_iff.mp hm
            have := jogadas_set_length (b := tab) (c := m) hE hcpu
            omega
          obtain ⟨hB, hAB, -⟩ := branchAB_max_spec
            (fun b a bt => minimax_alfa_beta f b false cpu plr a bt)
            (fun b => minimax_plain f b false cpu plr) cpu tab beta
            (jogadas_possiveis tab) .bot none alfa
            (fun m hm a hat => ihf (setCell tab m.1 m.2 cpu) false a beta (hchild m hm) hat)
            hab (EInt.bot_le alfa) (Or.inl rfl)
          constructor
          · rcases hB with ⟨hnil, -⟩ | hB
            · exact absurd hnil (jogadas_ne_nil hav)
            · exact hB
          · exact hAB
      · rw [minimax_alfa_beta_terminal hav, minimax_plain_terminal hav]
        exact ⟨pontuacao_bounded v cpu plr,
          Or.inr (EInt.le_refl _), Or.inr (EInt.le_refl _)⟩

/-- C5.  For every board and both settings of the maximizing flag (and
any pair of non-empty marks), alpha-beta search started from the full
window `(-inf, +inf)` returns exactly the brute-force minimax score:
pruning never changes the root value. -/
theorem C5_pruning_preserves_value (tab : Board) (isMax : Bool) (cpu plr : Mark)
    (hcpu : cpu ≠ Mark.E) (hplr : plr ≠ Mark.E) :
    (minimax_alfa_beta 9 tab isMax cpu plr .bot .top).1 =
      minimax_plain 9 tab isMax cpu plr := by
  obtain ⟨hB, hAB⟩ := minimax_AB_spec cpu plr hcpu hplr 9 tab isMax .bot .top
    (jogadas_length_le tab) rfl
  obtain ⟨k, hk, -, -⟩ := hB
  rcases hAB.1 with h' | h'
  · rw [hk] at h'
    cases h'
  · rcases hAB.2 with h'' | h''
    · rw [hk] at h''
      cases h''
    · exact EInt.le_antisymm h'' h'

/-- Witness for `C5_pruning_preserves_value` at the concrete board
`bW1` with `'O'` maximizing. -/
theorem C5_witness :
    (minimax_alfa_beta 9 bW1 true Mark.O Mark.X .bot .top).1 =
      minimax_plain 9 bW1 true Mark.O Mark.X :=
  C5_pruning_preserves_value bW1 true Mark.O Mark.X (by decide) (by decide)

theorem branchPlain_congr (rec1 rec2 : Board → EInt) (isMax : Bool) (place : Mark)
    (b : Board) :
    ∀ (ms : List Move) (init : EInt),
      (∀ m ∈ ms, rec1 (setCell b m.1 m.2 place) = rec2 (setCell b m.1 m.2 place)) →
      branchPlain rec1 isMax place b ms init = branchPlain rec2 isMax place b ms init
  | [], _, _ => rfl
  | m :: rest, init, h => by
      unfold branchPlain
      rw [h m (List.mem_cons_self m rest)]
      exact branchPlain_congr rec1 rec2 isMax place b rest _
        (fun m' hm' => h m' (List.mem_cons_of_mem m hm'))

theorem minimax_plain_fuel {cpu plr : Mark} (hcpu : cpu ≠ Mark.E) (hplr : plr ≠ Mark.E) :
    ∀ (f g : Nat) (tab : Board) (isMax : Bool), (jogadas_possiveis tab).length ≤ f →
      (jogadas_possiveis tab).length ≤ g →
      minimax_plain f tab isMax cpu plr = minimax_plain g tab isMax cpu plr := by
  intro f
  induction f with
  | zero =>
      intro g tab isMax hf hg
      rcases hav : (avaliar_tabuleiro tab).1 with _ | v
      · exact absurd (List.length_eq_zero.mp (Nat.le_zero.mp hf)) (jogadas_ne_nil hav)
      · rw [minimax_plain_terminal hav, minimax_plain_terminal hav]
  | succ f ihf =>
      intro g tab isMax hf hg
      rcases hav : (avaliar_tabuleiro tab).1 with _ | v
      · rcases g with _ | g'
        · exact absurd (List.length_eq_zero.mp (Nat.le_zero.mp hg)) (jogadas_ne_nil hav)
        · rw [minimax_plain_succ_none hav, minimax_plain_succ_none hav]
          apply branchPlain_congr
          intro m hm
          have hE := mem_jogadas_iff.mp hm
          have hdec := jogadas_set_length (b := tab) (c := m)
            (m := if isMax then cpu else plr) hE
            (by rcases isMax <;> simp [hcpu, hplr])
          exact ihf g' _ (!isMax) (by omega) (by omega)
      · rw [minimax_plain_terminal hav, minimax_plain_terminal hav]

theorem branchAB_max_root (rec : Board → EInt → EInt → EInt × Option Move)
    (val : Board → EInt) (place : Mark) (b : Board) (S : List Move) :
    ∀ (ms : List Move) (best : EInt) (bm : Option Move),
      (∀ m ∈ ms, ∀ a : EInt, EInt.lt a .top = true →
        Bounded (rec (setCell b m.1 m.2 place) a .top).1 ∧
        ABspec (val (setCell b m.1 m.2 place)) ((rec (setCell b m.1 m.2 place) a .top).1)
          a .top) →
      (∀ m ∈ ms, m ∈ S) →
      ((best = .bot ∧ bm = none) ∨
        (∃ m0 ∈ S, bm = some m0 ∧ val (setCell b m0.1 m0.2 place) = best ∧ Bounded best)) →
      (branchAB rec true place b ms best bm best .top).1 =
        branchPlain val true place b ms best ∧
      ((ms = [] ∧ branchAB rec true place b ms best bm best .top = (best, bm)) ∨
        (∃ m0 ∈ S, (branchAB rec true place b ms best bm best .top).2 = some m0 ∧
          val (setCell b m0.1 m0.2 place) =
            (branchAB rec true place b ms best bm best .top).1 ∧
          Bounded ((branchAB rec true place b ms best bm best .top).1))) := by
  intro ms
  induction ms with
  | nil =>
      intro best bm _ _ hinv
      refine ⟨rfl, ?_⟩
      rcases hinv with ⟨rfl, rfl⟩ | ⟨m0, hm0, hbm, hvalm, hB⟩
      · exact Or.inl ⟨rfl, rfl⟩
      · exact Or.inr ⟨m0, hm0, hbm, hvalm, hB⟩
  | cons m rest ih =>
      intro best bm H hsub hinv
      have hbest_ne_top : EInt.le .top best = false := by
        rcases hinv with ⟨rfl, -⟩ | ⟨-, -, -, -, hB⟩
        · rfl
        · exact bounded_not_top_le hB
      have hlt_top : EInt.lt best .top = true := EInt.lt_eq_true.mpr hbest_ne_top
      have Hm := H m (List.mem_cons_self m rest) best hlt_top
      have Hb : Bounded (rec (setCell b m.1 m.2 place) best .top).1 := Hm.1
      have hvc_rc : EInt.le (val (setCell b m.1 m.2 place))
          ((rec (setCell b m.1 m.2 place) best .top).1) = true := by
        rcases Hm.2.1 with h' | h'
        · rw [bounded_not_top_le Hb] at h'; cases h'
        · exact h'
      have HB := Hm.2.2
      rw [branchAB_cons_true, branchPlain_cons_true]
      by_cases hupd : EInt.lt best ((rec (setCell b m.1 m.2 place) best .top).1) = true
      · rw [if_pos hupd]
        have hrc_vc : EInt.le ((rec (setCell b m.1 m.2 place) best .top).1)
            (val (setCell b m.1 m.2 place)) = true := by
          rcases HB with h' | h'
          · rw [EInt.lt_eq_true.mp hupd] at h'; cases h'
          · exact h'
        have hveq : val (setCell b m.1 m.2 place) =
            (rec (setCell b m.1 m.2 place) best .top).1 :=
          EInt.le_antisymm hvc_rc hrc_vc
        have hemax : emax best ((rec (setCell b m.1 m.2 place) best .top).1) =
            (rec (setCell b m.1 m.2 place) best .top).1 := by
          unfold emax
          rw [hupd]
          simp
        have hnohalt : ¬EInt.le EInt.top
            (emax best ((rec (setCell b m.1 m.2 place) best .top).1)) = true := by
          rw [hemax, bounded_not_top_le Hb]
          exact Bool.false_ne_true
        rw [if_neg hnohalt, hemax]
        have hres := ih ((rec (setCell b m.1 m.2 place) best .top).1) (some m)
          (fun m' hm' => H m' (List.mem_cons_of_mem m hm'))
          (fun m' hm' => hsub m' (List.mem_cons_of_mem m hm'))
          (Or.inr ⟨m, hsub m (List.mem_cons_self m rest), rfl, hveq, Hb⟩)
        refine ⟨?_, ?_⟩
        · rw [hres.1, ← hveq]
          congr 1
          rw [emax_eq_right (EInt.le_trans (EInt.le_of_lt hupd) (by rw [hveq]; exact EInt.le_refl _))]
        · rcases hres.2 with ⟨-, hr⟩ | ⟨m0, hm0, h1, h2, h3⟩
          · refine Or.inr ⟨m, hsub m (List.mem_cons_self m rest), ?_, ?_, ?_⟩
            · rw [hr]
            · rw [hr]; exact hveq
            · rw [hr]; exact Hb
          · exact Or.inr ⟨m0, hm0, h1, h2, h3⟩
      · rw [if_neg hupd]
        have hrcb : EInt.le ((rec (setCell b m.1 m.2 place) best .top).1) best = true :=
          EInt.lt_eq_false.mp (bnot_true hupd)
        have hvc_best : EInt.le (val (setCell b m.1 m.2 place)) best = true :=
          EInt.le_trans hvc_rc hrcb
        have hinv' : (best = EInt.bot ∧ bm = none) ∨
            (∃ m0 ∈ S, bm = some m0 ∧ val (setCell b m0.1 m0.2 place) = best ∧
              Bounded best) := hinv
        have hbestB : Bounded best := by
          rcases hinv with ⟨rfl, -⟩ | ⟨-, -, -, -, hB⟩
          · obtain ⟨k, hk, -, -⟩ := Hb
            rw [hk] at hrcb
            cases hrcb
          · exact hB
        have hemax : emax best best = best := emax_eq_left (EInt.le_refl best)
        have hnohalt : ¬EInt.le EInt.top (emax best best) = true := by
          rw [hemax, bounded_not_top_le hbestB]
          exact Bool.false_ne_true
        rw [if_neg hnohalt, hemax, emax_eq_left hvc_best]
        obtain ⟨hres1, hres2⟩ := ih best bm
          (fun m' hm' => H m' (List.mem_cons_of_mem m hm'))
          (fun m' hm' => hsub m' (List.mem_cons_of_mem m hm')) hinv'
        refine ⟨hres1, ?_⟩
        rcases hres2 with ⟨-, hr⟩ | ⟨m0, hm0, h1, h2, h3⟩
        · rcases hinv' with ⟨hbot, -⟩ | ⟨m0, hm0, hbm, hvalm, hB⟩
          · obtain ⟨k, hk, -, -⟩ := hbestB
            rw [hbot] at hk
            cases hk
          · refine Or.inr ⟨m0, hm0, ?_, ?_, ?_⟩
            · rw [hr]; exact hbm
            · rw [hr]; exact hvalm
            · rw [hr]; exact hB
        · exact Or.inr ⟨m0, hm0, h1, h2, h3⟩

theorem minimax_root_move (cpu plr : Mark) (hcpu : cpu ≠ Mark.E) (hplr : plr ≠ Mark.E)
    (f : Nat) {tab : Board} (hlen : (jogadas_possiveis tab).length ≤ f + 1)
    (hav : (avaliar_tabuleiro tab).1 = none) :
    ∃ (m : Move) (k : Int), minimax_alfa_beta (f + 1) tab true cpu plr .bot .top =
        (.fin k, some m) ∧
      m ∈ jogadas_possiveis tab ∧
      minimax_plain f (setCell tab m.1 m.2 cpu) false cpu plr = .fin k ∧
      minimax_plain (f + 1) tab true cpu plr = .fin k := by
  have hchild : ∀ m ∈ jogadas_possiveis tab,
      (jogadas_possiveis (setCell tab m.1 m.2 cpu)).length ≤ f := by
    intro m hm
    have hE := mem_jogadas_iff.mp hm
    have := jogadas_set_length (b := tab) (c := m) hE hcpu
    omega
  have hroot := branchAB_max_root
    (fun b a bt => minimax_alfa_beta f b false cpu plr a bt)
    (fun b => minimax_plain f b false cpu plr) cpu tab (jogadas_possiveis tab)
    (jogadas_possiveis tab) .bot none
    (fun m hm a hat =>
      minimax_AB_spec cpu plr hcpu hplr f (setCell tab m.1 m.2 cpu) false a .top
        (hchild m hm) hat)
    (fun m hm => hm) (Or.inl ⟨rfl, rfl⟩)
  obtain ⟨hval, hbm⟩ := hroot
  rcases hbm with ⟨hnil, -⟩ | ⟨m0, hm0, h1, h2, h3⟩
  · exact absurd hnil (jogadas_ne_nil hav)
  · obtain ⟨k, hk, -, -⟩ := h3
    refine ⟨m0, k, ?_, hm0, ?_, ?_⟩
    · rw [minimax_alfa_beta_succ_none hav]
      exact Prod.ext_iff.mpr ⟨hk, h1⟩
    · exact h2.trans hk
    · rw [minimax_plain_succ_none hav]
      exact hval.symm.trans hk

theorem pontuacao_nonneg_ne {v : Res}
    (h : EInt.le (.fin 0) (pontuacao v Mark.O Mark.X) = true) : v ≠ .venc Mark.X := by
  intro hv
  rw [hv] at h
  simp [pontuacao, EInt.le] at h

theorem estrategia_impossivel (s : GameState) (cpu : Mark) :
    estrategia_cpu (fun l => l) List.head? s IMPOSSIVEL cpu =
      (minimax_alfa_beta 9 s.tabuleiro (decide (cpu = Mark.O)) cpu (outro cpu)
        .bot .top).2 := by
  unfold estrategia_cpu
  rw [if_neg (by decide), if_neg (by decide), if_pos rfl]

theorem hardSafe_terminal {cpu : Mark} {fuel : Nat} {b : Board} {turn : Mark} {r : Res}
    (h : (avaliar_tabuleiro b).1 = some r) :
    hardSafe cpu fuel b turn = decide (r ≠ Res.venc (outro cpu)) := by
  cases fuel <;> (conv_lhs => unfold hardSafe) <;> rw [h]

theorem hardSafe_succ_none {cpu : Mark} {f : Nat} {b : Board} {turn : Mark}
    (h : (avaliar_tabuleiro b).1 = none) :
    hardSafe cpu (f + 1) b turn =
      if turn = cpu then
        (match estrategia_cpu (fun l => l) List.head? ⟨b, turn, none⟩ IMPOSSIVEL cpu with
        | some m => (jogadas_possiveis b).contains m &&
            hardSafe cpu f (setCell b m.1 m.2 cpu) (outro cpu)
        | none => false)
      else (jogadas_possiveis b).all
        (fun m => hardSafe cpu f (setCell b m.1 m.2 (outro cpu)) cpu) := by
  conv_lhs => unfold hardSafe
  rw [h]

theorem hardSafe_of_nonneg :
    ∀ (f : Nat) (b : Board) (turn : Mark), (jogadas_possiveis b).length ≤ f →
      ((turn = Mark.O ∧ EInt.le (.fin 0) (gameValue b true) = true) ∨
        (turn = Mark.X ∧ EInt.le (.fin 0) (gameValue b false) = true)) →
      hardSafe Mark.O f b turn = true := by
  intro f
  induction f with
  | zero =>
      intro b turn _ hval
      rcases hav : (avaliar_tabuleiro b).1 with _ | r
      · conv_lhs => unfold hardSafe
        rw [hav]
      · rw [hardSafe_terminal hav]
        have hv : EInt.le (.fin 0) (pontuacao r Mark.O Mark.X) = true := by
          rcases hval with ⟨-, hv⟩ | ⟨-, hv⟩ <;>
            (unfold gameValue at hv; rw [minimax_plain_terminal hav] at hv; exact hv)
        simp only [decide_eq_true_eq]
        exact pontuacao_nonneg_ne hv
  | succ f ihf =>
      intro b turn hlen hval
      rcases hav : (avaliar_tabuleiro b).1 with _ | r
      · rw [hardSafe_succ_none hav]
        rcases hval with ⟨ht, hv⟩ | ⟨ht, hv⟩
        · -- the CPU ('O') moves: the alpha-beta choice keeps the value
          rw [if_pos (by rw [ht])]
          rw [estrategia_impossivel]
          obtain ⟨m, k, hmm, hmem, hchild, hroot⟩ :=
            minimax_root_move Mark.O Mark.X (by decide) (by decide)
              8 (jogadas_length_le b) hav
          show (match (minimax_alfa_beta 9 b true Mark.O Mark.X .bot .top).2 with
            | some mv => (jogadas_possiveis b).contains mv &&
                hardSafe Mark.O f (setCell b mv.1 mv.2 Mark.O) (outro Mark.O)
            | none => false) = true
          rw [show (minimax_alfa_beta 9 b true Mark.O Mark.X .bot .top).2 = some m from
            by rw [hmm]]
          rw [Bool.and_eq_true]
          have hE := mem_jogadas_iff.mp hmem
          have hdec := jogadas_set_length (b := b) (c := m) (m := Mark.O) hE (by decide)
          have hdec9 := jogadas_length_le b
          refine ⟨by simpa using hmem, ?_⟩
          apply ihf
          · omega
          · refine Or.inr ⟨rfl, ?_⟩
            have hval9 : gameValue (setCell b m.1 m.2 Mark.O) false = .fin k := by
              unfold gameValue
              rw [minimax_plain_fuel (by decide) (by decide) 9 8 _ false (by omega) (by omega)]
              exact hchild
            rw [hval9]
            have hvroot : gameValue b true = .fin k := by
              unfold gameValue
              exact hroot
            rw [hvroot] at hv
            exact hv
        · -- the opponent ('X') moves: every reply keeps the value nonnegative
          rw [if_neg (by rw [ht]; decide), List.all_eq_true]
          intro m hm
          show hardSafe Mark.O f (setCell b m.1 m.2 Mark.X) Mark.O = true
          have hE := mem_jogadas_iff.mp hm
          have hdec := jogadas_set_length (b := b) (c := m) (m := Mark.X) hE (by decide)
          have hdec9 := jogadas_length_le b
          apply ihf
          · omega
          · refine Or.inl ⟨rfl, ?_⟩
            have hstep : EInt.le (minimax_plain 9 b false Mark.O Mark.X)
                (minimax_plain 8 (setCell b m.1 m.2 Mark.X) true Mark.O Mark.X) = true := by
              rw [show (9 : Nat) = 8 + 1 from rfl, minimax_plain_succ_none hav]
              exact branchPlain_le_elem _ _ _ _ _ m hm
            have hfuel : minimax_plain 8 (setCell b m.1 m.2 Mark.X) true Mark.O Mark.X =
                minimax_plain 9 (setCell b m.1 m.2 Mark.X) true Mark.O Mark.X :=
              minimax_plain_fuel (by decide) (by decide) 8 9 _ true (by omega) (by omega)
            unfold gameValue at hv ⊢
            exact EInt.le_trans hv (hfuel ▸ hstep)
      · rw [hardSafe_terminal hav]
        have hv : EInt.le (.fin 0) (pontuacao r Mark.O Mark.X) = true := by
          rcases hval with ⟨-, hv⟩ | ⟨-, hv⟩ <;>
            (unfold gameValue at hv; rw [minimax_plain_terminal hav] at hv; exact hv)
        simp only [decide_eq_true_eq]
        exact pontuacao_nonneg_ne hv

/-- C1 (counterexample).  The position `sC1X` is reached by the legal game
`X(1,1), O(0,0), X(2,1), O(0,1), X(2,2), O(1,0)`; it is non-terminal with
`X` (the CPU) to move, and `X` even has an immediate win at `(2,0)`
(minimax value `+10`).  Yet the hard tier, invoked with `cpu_mark = 'X'`,
runs the search with `is_maximizing = (cpu_symbol == 'O') = False` — as
the minimizer — plays `(0,2)`, and the opponent `O` then wins at `(2,0)`:
the game predicate `hardSafe` is `false`, so the CPU playing `'X'` can
lose from a reachable, not-yet-lost position. -/
theorem gstate_ext {s s' : GameState} (hb : ∀ i j : Fin 3, s.tabuleiro i j = s'.tabuleiro i j)
    (hj : s.jogador_atual = s'.jogador_atual) (hv : s.vencedor = s'.vencedor) : s = s' := by
  cases s
  cases s'
  congr 1
  · funext i j
    exact hb i j

theorem reach_sC1X : Reachable sC1X := by
  have r1 := Reachable.step _ _ 1 1 Reachable.base rfl
  have r2 := Reachable.step _ _ 0 0 r1 rfl
  have r3 := Reachable.step _ _ 2 1 r2 rfl
  have r4 := Reachable.step _ _ 0 1 r3 rfl
  have r5 := Reachable.step _ _ 2 2 r4 rfl
  have r6 := Reachable.step _ _ 1 0 r5 rfl
  have cast : ∀ s' : GameState, s' = sC1X → Reachable s' → Reachable sC1X := by
    intro s' h hr
    exact h ▸ hr
  refine cast _ ?_ r6
  exact gstate_ext (fun i j => by fin_cases i <;> fin_cases j <;> rfl) rfl rfl

theorem C1_counterexample :
    Reachable sC1X ∧ sC1X.jogador_atual = Mark.X ∧
    (avaliar_tabuleiro sC1X.tabuleiro).1 = none ∧
    EInt.le (.fin 0) (minimax_plain 9 sC1X.tabuleiro true Mark.X Mark.O) = true ∧
    hardSafe Mark.X 9 sC1X.tabuleiro Mark.X = false := by
  refine ⟨reach_sC1X, rfl, by decide, by decide, by decide⟩

/-- C1 (amended).  When the CPU plays `'O'` — the mark the source
hardcodes as the maximizer — the hard tier never loses from any position
that is not already lost: if the board's minimax value for `O` (with the
side to move as stated) is at least `0`, then every continuation in which
the CPU answers through `estrategia_cpu (Impossível)` and the opponent
`X` plays arbitrarily ends in a draw or an `O` win, never in `Win(X)`. -/
theorem C1_hard_cpu_O_never_loses (b : Board) (turn : Mark)
    (hnt : (avaliar_tabuleiro b).1 = none)
    (hval : (turn = Mark.O ∧ EInt.le (.fin 0) (gameValue b true) = true) ∨
      (turn = Mark.X ∧ EInt.le (.fin 0) (gameValue b false) = true)) :
    hardSafe Mark.O 9 b turn = true :=
  hardSafe_of_nonneg 9 b turn (jogadas_length_le b) hval

/-- Witness for `C1_hard_cpu_O_never_loses` at the concrete non-terminal
position `bW1` (value `0` for `O`, `O` to move). -/
theorem C1_witness : hardSafe Mark.O 9 bW1 Mark.O = true :=
  C1_hard_cpu_O_never_loses bW1 Mark.O (by decide) (Or.inl ⟨rfl, by decide⟩)
